import Mathlib

/-
  Verification of the chunk streaming and persistence subsystem of the
  crafting_game repository.

  The embedding follows the source files src/chunk.rs and src/world.rs.
  The resolution step is world.rs manage_loaded_chunks (registered by
  WorldPlugin in main.rs); the load, save and poll machinery is
  chunk.rs load_chunk, save_chunk, extract_chunk_data, task_poll,
  spawn_chunk_stub and gen_chunk.  Deferred bevy commands issued by one
  system are applied at the end of that system, observers run at the
  point their trigger command is flushed; the embedding applies command
  effects in queue order inside each step function.
-/

namespace Crafting

/-- world.rs Ground. -/
inductive Ground where
  | Dirt | Grass | Stone | Water
deriving DecidableEq, Repr

/-- A partition index, glam IVec2 (src uses chunk_index : IVec2). -/
abbrev IVec2 := Int × Int

/-- chunk.rs TileData: tile_index is a UVec2 (unsigned), modelled as a
pair of naturals. -/
structure TileData where
  tile_index : Nat × Nat
  ground : Ground
deriving DecidableEq, Repr

/-- chunk.rs ChunkData: the serialised form of a chunk. -/
structure ChunkData where
  chunk_index : IVec2
  tiles : List TileData
deriving DecidableEq, Repr

/-- A live tile entity: a child of a chunk entity carrying TilePos and
Ground components. -/
structure TileEnt where
  pos : Nat × Nat
  ground : Ground
deriving DecidableEq, Repr

/-- A live chunk entity (component Chunk { chunk_index }) together with
its tile children. -/
structure ChunkEnt where
  index : IVec2
  tiles : List TileEnt
deriving DecidableEq, Repr

/-- chunk.rs TILES_PER_CHUNK = 8. -/
def TILES_PER_CHUNK : Nat := 8

/-- chunk.rs TILE_LENGTH = 32.0 (an f32 with exact integral value). -/
def TILE_LENGTH : Int := 32

/-- An exactly represented rational, standing in for an f32 value whose
source computations here stay inside the exactly representable range.
Not normalised; den is kept positive by every constructor used. -/
structure QVal where
  num : Int
  den : Int
deriving DecidableEq, Repr

def qOfInt (n : Int) : QVal := ⟨n, 1⟩

def qSub (a b : QVal) : QVal := ⟨a.num * b.den - b.num * a.den, a.den * b.den⟩

def qAdd (a b : QVal) : QVal := ⟨a.num * b.den + b.num * a.den, a.den * b.den⟩

/-- Multiplication by the integral constant GRID_SIZE.x = 32. -/
def qMulInt (a : QVal) (k : Int) : QVal := ⟨a.num * k, a.den⟩

/-- Division by two, as in Rect::from_center_size (size / 2). -/
def qHalf (a : QVal) : QVal := ⟨a.num, a.den * 2⟩

/-- Rust `as i32` on an f32: truncation toward zero.  Int.tdiv truncates
toward zero, which matches for positive den. -/
def qTrunc (a : QVal) : Int := Int.tdiv a.num a.den

/-- bevy Rect, restricted to the exactly-representable values used. -/
structure RectQ where
  min : QVal × QVal
  max : QVal × QVal

/-- bevy Rect::from_center_size: min = center - size / 2,
max = center + size / 2. -/
def rectFromCenterSize (center size : QVal × QVal) : RectQ :=
  { min := (qSub center.1 (qHalf size.1), qSub center.2 (qHalf size.2)),
    max := (qAdd center.1 (qHalf size.1), qAdd center.2 (qHalf size.2)) }

/-- The view rectangle of one player, world.rs manage_loaded_chunks:
Rect::from_center_size(translation.xy(), Vec2::splat(view_distance * GRID_SIZE.x)). -/
def viewBorder (pos : QVal × QVal) (viewDistance : QVal) : RectQ :=
  rectFromCenterSize pos (qMulInt viewDistance TILE_LENGTH, qMulInt viewDistance TILE_LENGTH)

/-- Rust integer range a..b as a list. -/
def intRange (a b : Int) : List Int :=
  (List.range (b - a).toNat).map (fun (k : Nat) => a + (k : Int))

/-- world.rs chunk_indices_inside: iterates
(rect.min.x as i32) / units_per_chunk .. (rect.max.x as i32) / units_per_chunk
(truncating division, exclusive upper bound) on both axes,
units_per_chunk = TILES_PER_CHUNK as i32 * TILE_LENGTH as i32 = 256. -/
def chunk_indices_inside (rect : RectQ) : List IVec2 :=
  let upc : Int := (TILES_PER_CHUNK : Int) * TILE_LENGTH
  (intRange (Int.tdiv (qTrunc rect.min.1) upc) (Int.tdiv (qTrunc rect.max.1) upc)).flatMap
    (fun x =>
      (intRange (Int.tdiv (qTrunc rect.min.2) upc) (Int.tdiv (qTrunc rect.max.2) upc)).map
        (fun y => ((x, y) : IVec2)))

/-- The indices covered by one player. -/
def playerCoverage (pos : QVal × QVal) (viewDistance : QVal) : List IVec2 :=
  chunk_indices_inside (viewBorder pos viewDistance)

/-- world.rs manage_loaded_chunks: allowed_chunk_indices is built by
appending every player coverage list (duplicates are kept). -/
def allowedIndices (viewers : List (QVal × QVal)) (viewDistance : QVal) : List IVec2 :=
  viewers.flatMap (fun p => playerCoverage p viewDistance)

/-- Vec::iter().position(|x| *x == v). -/
def position (v : α) [DecidableEq α] : List α → Option Nat
  | [] => none
  | a :: as => if a = v then some 0 else (position v as).map (· + 1)

/-- Vec::swap_remove(pos): overwrite the element at pos with the last
element, then pop the last element. -/
def swapRemove (l : List α) (pos : Nat) : List α :=
  match l.getLast? with
  | none => l
  | some a => (l.set pos a).dropLast

/-- The chunk-entity loop of manage_loaded_chunks, flag component: each
chunk whose index occurs in the remaining allowed list is kept (true)
and consumes one occurrence by swap_remove; any other chunk is marked
for save-and-despawn (false). -/
def matchFlags : List ChunkEnt → List IVec2 → List (ChunkEnt × Bool)
  | [], _ => []
  | c :: cs, allowed =>
    match position c.index allowed with
    | some pos => (c, true) :: matchFlags cs (swapRemove allowed pos)
    | none => (c, false) :: matchFlags cs allowed

/-- The chunk-entity loop of manage_loaded_chunks, remaining allowed
list after all matched chunks consumed their occurrence. -/
def matchRem : List ChunkEnt → List IVec2 → List IVec2
  | [], allowed => allowed
  | c :: cs, allowed =>
    match position c.index allowed with
    | some pos => matchRem cs (swapRemove allowed pos)
    | none => matchRem cs allowed

def keptOf (fl : List (ChunkEnt × Bool)) : List ChunkEnt :=
  fl.filterMap (fun cb => if cb.2 then some cb.1 else none)

def evictedOf (fl : List (ChunkEnt × Bool)) : List ChunkEnt :=
  fl.filterMap (fun cb => if cb.2 then none else some cb.1)

/-- chunk.rs extract_chunk_data: find the first chunk whose chunk_index
matches, and snapshot its children as TileData; returns none where the
source would panic (.expect("Chunk to save does not exist!")). -/
def extract_chunk_data (index : IVec2) (chunks : List ChunkEnt) : Option ChunkData :=
  (chunks.find? (fun c => c.index = index)).map
    (fun c => { chunk_index := index,
                tiles := c.tiles.map (fun t => { tile_index := t.pos, ground := t.ground }) })

/-- Flushing the eviction commands of manage_loaded_chunks in queue
order: for every chunk flagged false, trigger SaveChunk (the observer
snapshots via extract_chunk_data against the world as despawned so
far) and then despawn the entity.  Returns the submitted saves and
whether an extract_chunk_data lookup failed (the source would panic). -/
def flushEvicts : List ChunkEnt → List (ChunkEnt × Bool) → List (IVec2 × ChunkData) × Bool
  | _, [] => ([], false)
  | done, (c, true) :: rest => flushEvicts (done ++ [c]) rest
  | done, (c, false) :: rest =>
    match extract_chunk_data c.index (done ++ c :: rest.map (·.1)) with
    | some cd =>
      let r := flushEvicts done rest
      ((c.index, cd) :: r.1, r.2)
    | none =>
      let r := flushEvicts done rest
      (r.1, true)

/-- The loading-task loop of manage_loaded_chunks: every in-flight
ComputeTask removes one occurrence of its index from the remaining
allowed list. -/
def filterPending : List IVec2 → List IVec2 → List IVec2
  | [], allowed => allowed
  | t :: ts, allowed =>
    match position t allowed with
    | some pos => filterPending ts (swapRemove allowed pos)
    | none => filterPending ts allowed

/-- chunk.rs gen_chunk: a fresh chunk is an 8 x 8 grid of Grass tiles,
x outer loop, y inner loop. -/
def gen_chunk (index : IVec2) : ChunkData :=
  { chunk_index := index,
    tiles := (List.range TILES_PER_CHUNK).flatMap
      (fun x => (List.range TILES_PER_CHUNK).map
        (fun y => ({ tile_index := (x, y), ground := Ground.Grass } : TileData))) }

/-- bevy_ecs_tilemap TilePos::to_index for the 8 x 8 map:
y * size.x + x, used by TileStorage::set as an unchecked index into
the 64-slot backing vector. -/
def tile_to_index (pos : Nat × Nat) : Nat := pos.2 * TILES_PER_CHUNK + pos.1

/-- chunk.rs spawn_chunk_stub: spawn a chunk entity whose index is the
chunk_index CARRIED BY THE DATA, with one tile child per listed
TileData; each tile is also registered with TileStorage::set, which
indexes its backing vector at y*8+x without a bounds check, so a
listed tile with y*8+x at or above 64 panics.  none models that
panic. -/
def spawn_chunk_stub (cd : ChunkData) : Option ChunkEnt :=
  if cd.tiles.all (fun t => tile_to_index t.tile_index < TILES_PER_CHUNK * TILES_PER_CHUNK) then
    some { index := cd.chunk_index,
           tiles := cd.tiles.map (fun t => { pos := t.tile_index, ground := t.ground }) }
  else none

/-- world.rs spawn_chunk_stub, the generation path used by
manage_loaded_chunks: spawns a chunk holding the full default 8 x 8
Grass grid (x outer loop, y inner loop).  Every generated position has
y*8+x below 64, so its TileStorage::set calls cannot panic. -/
def spawn_chunk_gen (chunk_index : IVec2) : ChunkEnt :=
  { index := chunk_index,
    tiles := (List.range TILES_PER_CHUNK).flatMap
      (fun x => (List.range TILES_PER_CHUNK).map
        (fun y => ({ pos := (x, y), ground := Ground.Grass } : TileEnt))) }

/-- RON tokens, the byte format produced by ron::to_string for
ChunkData and consumed by ron::de::from_bytes. -/
inductive Tok where
  | lp | rp | lb | rb | comma | colon
  | ident : String → Tok
  | int : Int → Tok
deriving DecidableEq, Repr

/-- Serialisation of Ground (serde unit variants). -/
def encGround : Ground → Tok
  | Ground.Dirt => Tok.ident "Dirt"
  | Ground.Grass => Tok.ident "Grass"
  | Ground.Stone => Tok.ident "Stone"
  | Ground.Water => Tok.ident "Water"

def decGround : Tok → Option Ground
  | Tok.ident "Dirt" => some Ground.Dirt
  | Tok.ident "Grass" => some Ground.Grass
  | Tok.ident "Stone" => some Ground.Stone
  | Tok.ident "Water" => some Ground.Water
  | _ => none

/-- One TileData in RON: (tile_index:(x,y),ground:G). -/
def encTile (t : TileData) : List Tok :=
  [Tok.lp, Tok.ident "tile_index", Tok.colon, Tok.lp,
   Tok.int (t.tile_index.1 : Int), Tok.comma, Tok.int (t.tile_index.2 : Int), Tok.rp,
   Tok.comma, Tok.ident "ground", Tok.colon, encGround t.ground, Tok.rp]

/-- ron::to_string of a ChunkData:
(chunk_index:(x,y),tiles:[tile,tile,...,]). -/
def encodeChunkData (cd : ChunkData) : List Tok :=
  [Tok.lp, Tok.ident "chunk_index", Tok.colon, Tok.lp,
   Tok.int cd.chunk_index.1, Tok.comma, Tok.int cd.chunk_index.2, Tok.rp,
   Tok.comma, Tok.ident "tiles", Tok.colon, Tok.lb]
  ++ cd.tiles.flatMap (fun t => encTile t ++ [Tok.comma])
  ++ [Tok.rb, Tok.rp]

/-- Parse one TileData; tile_index components are u32, so negative
integers are rejected. -/
def parseTile : List Tok → Option (TileData × List Tok)
  | Tok.lp :: Tok.ident "tile_index" :: Tok.colon :: Tok.lp ::
    Tok.int x :: Tok.comma :: Tok.int y :: Tok.rp ::
    Tok.comma :: Tok.ident "ground" :: Tok.colon :: g :: Tok.rp :: rest =>
    if x < 0 ∨ y < 0 then none
    else
      match decGround g with
      | some gr => some ({ tile_index := (x.toNat, y.toNat), ground := gr }, rest)
      | none => none
  | _ => none

/-- Parse a tile list up to the closing bracket; fuel bounds the
number of elements. -/
def parseTiles : Nat → List Tok → Option (List TileData × List Tok)
  | fuel, toks =>
    match toks with
    | Tok.rb :: rest => some ([], rest)
    | _ =>
      match fuel with
      | 0 => none
      | fuel + 1 =>
        match parseTile toks with
        | some (t, Tok.comma :: rest) =>
          match parseTiles fuel rest with
          | some (ts, rest') => some (t :: ts, rest')
          | none => none
        | _ => none

/-- ron::de::from_bytes for ChunkData: the whole input must be consumed.
No constraint relates the number of tiles or their coordinates to the
8 x 8 grid. -/
def decodeChunkData (toks : List Tok) : Option ChunkData :=
  match toks with
  | Tok.lp :: Tok.ident "chunk_index" :: Tok.colon :: Tok.lp ::
    Tok.int x :: Tok.comma :: Tok.int y :: Tok.rp ::
    Tok.comma :: Tok.ident "tiles" :: Tok.colon :: Tok.lb :: rest =>
    match parseTiles rest.length rest with
    | some (ts, [Tok.rp]) => some { chunk_index := (x, y), tiles := ts }
    | _ => none
  | _ => none

/-- World state owned by the single-threaded control path: live chunk
entities (query order), in-flight load task indices (query order), and
the backing store (file contents per index; none = file absent). -/
structure WState where
  chunks : List ChunkEnt
  tasks : List IVec2
  store : IVec2 → Option (List Tok)

/-- The commands issued by one resolution tick together with the world
state after the command flush. -/
structure TickResult where
  next : WState
  saves : List (IVec2 × ChunkData)
  loads : List IVec2
  gens : List IVec2
  evicted : List IVec2
  panicked : Bool

/-- world.rs manage_loaded_chunks over a precomputed allowed list:
evictions (save, then despawn) run first, then in-flight load tasks
consume occurrences, then every remaining occurrence triggers a load
when its file exists and otherwise generates and spawns a fresh chunk. -/
def manage_loaded_chunks (S : WState) (allowed : List IVec2) : TickResult :=
  let flagged := matchFlags S.chunks allowed
  let fe := flushEvicts [] flagged
  let rem1 := matchRem S.chunks allowed
  let rem2 := filterPending S.tasks rem1
  let loads := rem2.filter (fun i => (S.store i).isSome)
  let gens := rem2.filter (fun i => (S.store i).isNone)
  { next := { chunks := keptOf flagged ++ gens.map spawn_chunk_gen,
              tasks := S.tasks ++ loads,
              store := S.store },
    saves := fe.1,
    loads := loads,
    gens := gens,
    evicted := (evictedOf flagged).map (·.index),
    panicked := fe.2 }

/-- One resolution tick: coverage is computed per viewer and appended,
then manage_loaded_chunks diffs it against the live world. -/
def resolveTick (S : WState) (viewers : List (QVal × QVal)) (viewDistance : QVal) : TickResult :=
  manage_loaded_chunks S (allowedIndices viewers viewDistance)

/-- chunk.rs task_poll for the single task at list position k: the task
reads its file (chunk.rs load_chunk), on success the queued command
materializes the decoded chunk through spawn_chunk_stub, on IoError
(missing file) or DecodeError the error is logged and nothing is
spawned; the task entity is despawned either way.  none models the
panic of spawn_chunk_stub on a decoded out-of-grid tile. -/
def task_poll (S : WState) (k : Nat) : Option WState :=
  match S.tasks[k]? with
  | none => some S
  | some i =>
    match S.store i with
    | none =>
      some { chunks := S.chunks, tasks := S.tasks.eraseIdx k, store := S.store }
    | some bytes =>
      match decodeChunkData bytes with
      | none =>
        some { chunks := S.chunks, tasks := S.tasks.eraseIdx k, store := S.store }
      | some cd =>
        match spawn_chunk_stub cd with
        | none => none
        | some ent =>
          some { chunks := S.chunks ++ [ent], tasks := S.tasks.eraseIdx k, store := S.store }

/-- Count of live chunk entities carrying a given partition index. -/
def idxCount (i : IVec2) (cs : List ChunkEnt) : Nat :=
  cs.countP (fun c => c.index = i)

/-- Every persisted file decodes, if at all, to data carrying the index
it is keyed by (files written by save_chunk have this shape, since
extract_chunk_data stamps the queried index). -/
def StoreOk (S : WState) : Prop :=
  ∀ i bytes cd, S.store i = some bytes → decodeChunkData bytes = some cd → cd.chunk_index = i

/-- The residency invariant: per index at most one live representation
and in-flight load combined. -/
def Inv (S : WState) : Prop :=
  StoreOk S ∧ ∀ i, idxCount i S.chunks + List.count i S.tasks ≤ 1

/-- Coverage hypothesis under which the resolution step is duplicate
free: no index is covered by two viewers in the same tick. -/
def CovOnce (viewers : List (QVal × QVal)) (viewDistance : QVal) : Prop :=
  ∀ i, List.count i (allowedIndices viewers viewDistance) ≤ 1

/-- One step of the subsystem: a resolution tick with duplicate-free
coverage, or the completion of an in-flight load task (a panicking
poll has no successor state). -/
inductive SysStep : WState → WState → Prop where
  | tick (S : WState) (viewers : List (QVal × QVal)) (viewDistance : QVal)
      (hcov : CovOnce viewers viewDistance) :
      SysStep S (resolveTick S viewers viewDistance).next
  | load (S S' : WState) (k : Nat) (h : task_poll S k = some S') : SysStep S S'

/-- Reachability by resolution ticks and load completions. -/
inductive Reach : WState → WState → Prop where
  | refl (S : WState) : Reach S S
  | step {S T U : WState} : Reach S T → SysStep T U → Reach S U

/-- Decimal digit characters of a natural number, most significant
first, with explicit fuel so that the kernel can evaluate it. -/
def natCharsAux : Nat → Nat → List Char
  | 0, _ => []
  | fuel + 1, n =>
    if n < 10 then [Nat.digitChar n]
    else natCharsAux fuel (n / 10) ++ [Nat.digitChar (n % 10)]

/-- Rendering of a natural number in decimal, as Display for u32/i32
magnitudes. -/
def natChars (n : Nat) : List Char := natCharsAux (n + 1) n

/-- Rendering of an i32 in decimal, as Rust Display for i32. -/
def intChars (x : Int) : List Char :=
  if x < 0 then '-' :: natChars x.natAbs else natChars x.natAbs

/-- The backing-store key of chunk.rs save_chunk and load_chunk:
format "world/{x}_{y}.ron". -/
def chunk_file_path (i : IVec2) : List Char :=
  ('w' :: 'o' :: 'r' :: 'l' :: 'd' :: '/' :: intChars i.1)
  ++ '_' :: intChars i.2
  ++ ['.', 'r', 'o', 'n']

/-- Decimal value of a digit-character list, used to invert natChars. -/
def charsVal (l : List Char) : Nat :=
  l.foldl (fun acc c => 10 * acc + (c.toNat - 48)) 0

/-- Modelled from the spec: the resident set the specification claims
for a viewer at (0,0) with view distance 20, the indices (-3,-3) up to
(2,2) inclusive. -/
def specClaimedResidentSet : List IVec2 :=
  (intRange (-3) 3).flatMap (fun x => (intRange (-3) 3).map (fun y => ((x, y) : IVec2)))

/-- Modelled from the spec: partition index i has world-space footprint
[256 i, 256 (i + 1)] per axis and the spec predicate asks that it
intersect the rectangle centered at v with half-size d * cellLength =
32 d per axis. -/
def specFootprintIntersects (v : Int × Int) (d : Int) (i : IVec2) : Prop :=
  256 * i.1 ≤ v.1 + 32 * d ∧ v.1 - 32 * d ≤ 256 * (i.1 + 1) ∧
  256 * i.2 ≤ v.2 + 32 * d ∧ v.2 - 32 * d ≤ 256 * (i.2 + 1)

instance (v : Int × Int) (d : Int) (i : IVec2) : Decidable (specFootprintIntersects v d i) := by
  unfold specFootprintIntersects; infer_instance

/-- The world state before anything is loaded and with no saved files. -/
def emptyW : WState := { chunks := [], tasks := [], store := fun _ => none }

/-- A store holding one undecodable file at index (0,0). -/
def corruptStore00 : IVec2 → Option (List Tok) :=
  fun i => if i = ((0 : Int), (0 : Int)) then some [Tok.comma] else none

/-- A store holding one well-formed file at index (0,0). -/
def goodStore00 : IVec2 → Option (List Tok) :=
  fun i => if i = ((0 : Int), (0 : Int)) then some (encodeChunkData (gen_chunk ((0 : Int), (0 : Int)))) else none

/-- Remove the file at index i (the spec load-failure scenario where
the file is deleted between ticks). -/
def storeErase (S : WState) (i : IVec2) : WState :=
  { S with store := fun j => if j = i then none else S.store j }

/-- A world holding exactly one freshly generated chunk at (0,0). -/
def oneChunkW : WState :=
  { chunks := [spawn_chunk_gen ((0 : Int), (0 : Int))],
    tasks := [],
    store := fun _ => none }

/-- A world with one in-flight load for (0,0) whose file is corrupt. -/
def corruptTaskW : WState :=
  { chunks := [], tasks := [((0 : Int), (0 : Int))], store := corruptStore00 }

/-- A world with one in-flight load for (0,0) whose file is absent
(the load task will hit an IoError when it opens the file). -/
def missingFileTaskW : WState :=
  { chunks := [], tasks := [((0 : Int), (0 : Int))], store := fun _ => none }

/-- Well-formed chunk data listing a tile outside the 8 x 8 grid:
tile_to_index (0, 8) = 64. -/
def oobChunkData : ChunkData :=
  { chunk_index := ((0 : Int), (0 : Int)),
    tiles := [{ tile_index := (0, 8), ground := Ground.Dirt }] }

/-- Another well-formed chunk data with an out-of-grid tile:
tile_to_index (7, 9) = 79. -/
def oobChunkData2 : ChunkData :=
  { chunk_index := ((1 : Int), (1 : Int)),
    tiles := [{ tile_index := (7, 9), ground := Ground.Stone }] }

/-- A world with one in-flight load for (0,0) whose persisted file is
well-formed RON but lists an out-of-grid tile. -/
def oobTaskW : WState :=
  { chunks := [], tasks := [((0 : Int), (0 : Int))],
    store := fun i =>
      if i = ((0 : Int), (0 : Int)) then some (encodeChunkData oobChunkData) else none }

/-- A one-tile chunk with an in-grid coordinate, fewer than the 64
cells of the full grid. -/
def sparseChunkData : ChunkData :=
  { chunk_index := ((2 : Int), (3 : Int)),
    tiles := [{ tile_index := (3, 2), ground := Ground.Water }] }

/-! ### Basic list lemmas -/

theorem position_eq_some {α : Type} [DecidableEq α] {v : α} {l : List α} {p : Nat}
    (h : position v l = some p) : ∃ hp : p < l.length, l[p] = v := by
  induction l generalizing p with
  | nil => simp [position] at h
  | cons a as ih =>
    by_cases hav : a = v
    · simp only [position, if_pos hav, Option.some.injEq] at h
      subst h
      exact ⟨by simp, by simpa using hav⟩
    · simp only [position, if_neg hav, Option.map_eq_some'] at h
      obtain ⟨q, hq, rfl⟩ := h
      obtain ⟨hlt, hget⟩ := ih hq
      exact ⟨by simpa using Nat.succ_lt_succ hlt, by simpa using hget⟩

theorem position_eq_none {α : Type} [DecidableEq α] {v : α} {l : List α} :
    position v l = none ↔ v ∉ l := by
  induction l with
  | nil => simp [position]
  | cons a as ih =>
    by_cases hav : a = v
    · simp [position, hav]
    · simp [position, hav, ih, Ne.symm hav]

theorem position_of_mem {α : Type} [DecidableEq α] {v : α} {l : List α} (h : v ∈ l) :
    ∃ p, position v l = some p := by
  cases hp : position v l with
  | none => exact absurd h (position_eq_none.mp hp)
  | some p => exact ⟨p, rfl⟩

theorem getLast?_set {α : Type} {l : List α} {a : α} {n : Nat} (h : n < l.length) :
    (l.set n a).getLast? = if n = l.length - 1 then some a else l.getLast? := by
  induction l generalizing n with
  | nil => simp at h
  | cons b bs ih =>
    cases n with
    | zero =>
      cases bs with
      | nil => simp
      | cons c cs => simp [List.getLast?_cons_cons]
    | succ m =>
      have hm : m < bs.length := by simpa using h
      have hbs : bs ≠ [] := List.ne_nil_of_length_pos (Nat.lt_of_le_of_lt (Nat.zero_le _) hm)
      obtain ⟨c, cs, rfl⟩ := List.exists_cons_of_ne_nil hbs
      have hstep : ((b :: c :: cs).set (m + 1) a) = b :: ((c :: cs).set m a) := rfl
      rw [hstep]
      have hne2 : (c :: cs).set m a ≠ [] := by
        cases m <;> simp
      obtain ⟨d, ds, hds⟩ := List.exists_cons_of_ne_nil hne2
      rw [hds, List.getLast?_cons_cons, ← hds, ih hm]
      have hiff : (m = (c :: cs).length - 1) ↔ (m + 1 = (b :: c :: cs).length - 1) := by
        simp only [List.length_cons]
        omega
      by_cases hcond : m = (c :: cs).length - 1
      · rw [if_pos hcond, if_pos (hiff.mp hcond)]
      · rw [if_neg hcond, if_neg (fun hc => hcond (hiff.mpr hc)), List.getLast?_cons_cons]

theorem count_swapRemove {α : Type} [DecidableEq α] [BEq α] [LawfulBEq α]
    {l : List α} {v : α} {p : Nat}
    (h : position v l = some p) (x : α) :
    List.count x (swapRemove l p) + (if v = x then 1 else 0) = List.count x l := by
  obtain ⟨hp, hv⟩ := position_eq_some h
  have hne : l ≠ [] := List.ne_nil_of_length_pos (Nat.lt_of_le_of_lt (Nat.zero_le _) hp)
  have ha : l.getLast? = some (l.getLast hne) := List.getLast?_eq_getLast l hne
  set a := l.getLast hne with hadef
  unfold swapRemove
  rw [ha]
  show List.count x ((l.set p a).dropLast) + (if v = x then 1 else 0) = List.count x l
  have hlast : (l.set p a).getLast? = some a := by
    rw [getLast?_set hp]
    split <;> simp [ha]
  have hny : (l.set p a) ≠ [] := by
    intro hcon
    rw [hcon] at hlast
    simp at hlast
  have hgl : (l.set p a).getLast hny = a := by
    have hq := List.getLast?_eq_getLast (l.set p a) hny
    rw [hq] at hlast
    exact Option.some.inj hlast
  have hsing : List.count x [a] = if a = x then 1 else 0 := by
    simp only [List.count_singleton, beq_iff_eq]
  have h1 : List.count x ((l.set p a).dropLast) + (if a = x then 1 else 0)
      = List.count x (l.set p a) := by
    rw [← hsing]
    conv_rhs => rw [← List.dropLast_append_getLast hny]
    rw [List.count_append, hgl]
  have hset := List.count_set a x l p hp
  rw [hv] at hset
  simp only [beq_iff_eq] at hset
  have hle : (if v = x then 1 else 0) ≤ List.count x l := by
    by_cases hvx : v = x
    · have hpos : 0 < List.count x l := by
        rw [List.count_pos_iff]
        exact hvx ▸ (hv ▸ List.getElem_mem hp)
      simpa [hvx] using hpos
    · simp [hvx]
  omega

/-! ### Counting lemmas for the eviction-and-matching phase -/

theorem idxCount_nil (i : IVec2) : idxCount i [] = 0 := rfl

theorem idxCount_cons (i : IVec2) (c : ChunkEnt) (cs : List ChunkEnt) :
    idxCount i (c :: cs) = idxCount i cs + (if c.index = i then 1 else 0) := by
  simp [idxCount, List.countP_cons]

theorem idxCount_append (i : IVec2) (cs ds : List ChunkEnt) :
    idxCount i (cs ++ ds) = idxCount i cs + idxCount i ds := by
  simp [idxCount, List.countP_append]

theorem keptOf_cons_true (c : ChunkEnt) (fl : List (ChunkEnt × Bool)) :
    keptOf ((c, true) :: fl) = c :: keptOf fl := by
  simp [keptOf, List.filterMap_cons]

theorem keptOf_cons_false (c : ChunkEnt) (fl : List (ChunkEnt × Bool)) :
    keptOf ((c, false) :: fl) = keptOf fl := by
  simp [keptOf, List.filterMap_cons]

theorem evictedOf_cons_true (c : ChunkEnt) (fl : List (ChunkEnt × Bool)) :
    evictedOf ((c, true) :: fl) = evictedOf fl := by
  simp [evictedOf, List.filterMap_cons]

theorem evictedOf_cons_false (c : ChunkEnt) (fl : List (ChunkEnt × Bool)) :
    evictedOf ((c, false) :: fl) = c :: evictedOf fl := by
  simp [evictedOf, List.filterMap_cons]

theorem matchFlags_cons_some {c : ChunkEnt} {cs : List ChunkEnt} {allowed : List IVec2}
    {pos : Nat} (h : position c.index allowed = some pos) :
    matchFlags (c :: cs) allowed = (c, true) :: matchFlags cs (swapRemove allowed pos) := by
  simp only [matchFlags, h]

theorem matchFlags_cons_none {c : ChunkEnt} {cs : List ChunkEnt} {allowed : List IVec2}
    (h : position c.index allowed = none) :
    matchFlags (c :: cs) allowed = (c, false) :: matchFlags cs allowed := by
  simp only [matchFlags, h]

theorem matchRem_cons_some {c : ChunkEnt} {cs : List ChunkEnt} {allowed : List IVec2}
    {pos : Nat} (h : position c.index allowed = some pos) :
    matchRem (c :: cs) allowed = matchRem cs (swapRemove allowed pos) := by
  simp only [matchRem, h]

theorem matchRem_cons_none {c : ChunkEnt} {cs : List ChunkEnt} {allowed : List IVec2}
    (h : position c.index allowed = none) :
    matchRem (c :: cs) allowed = matchRem cs allowed := by
  simp only [matchRem, h]

theorem matchFlags_map_fst (cs : List ChunkEnt) (allowed : List IVec2) :
    (matchFlags cs allowed).map (·.1) = cs := by
  induction cs generalizing allowed with
  | nil => simp [matchFlags]
  | cons c cs ih =>
    cases hpos : position c.index allowed with
    | some pos => rw [matchFlags_cons_some hpos, List.map_cons, ih]
    | none => rw [matchFlags_cons_none hpos, List.map_cons, ih]

theorem kept_add_rem (cs : List ChunkEnt) (allowed : List IVec2) (i : IVec2) :
    idxCount i (keptOf (matchFlags cs allowed)) + List.count i (matchRem cs allowed)
      = List.count i allowed := by
  induction cs generalizing allowed with
  | nil => simp [matchFlags, matchRem, keptOf, idxCount]
  | cons c cs ih =>
    cases hpos : position c.index allowed with
    | some pos =>
      rw [matchFlags_cons_some hpos, matchRem_cons_some hpos, keptOf_cons_true, idxCount_cons]
      have hsw := count_swapRemove hpos i
      have hih := ih (swapRemove allowed pos)
      omega
    | none =>
      rw [matchFlags_cons_none hpos, matchRem_cons_none hpos, keptOf_cons_false]
      exact ih allowed

theorem kept_add_evicted (cs : List ChunkEnt) (allowed : List IVec2) (i : IVec2) :
    idxCount i (keptOf (matchFlags cs allowed)) + idxCount i (evictedOf (matchFlags cs allowed))
      = idxCount i cs := by
  induction cs generalizing allowed with
  | nil => simp [matchFlags, keptOf, evictedOf, idxCount]
  | cons c cs ih =>
    cases hpos : position c.index allowed with
    | some pos =>
      rw [matchFlags_cons_some hpos, keptOf_cons_true, evictedOf_cons_true,
        idxCount_cons, idxCount_cons]
      have hih := ih (swapRemove allowed pos)
      omega
    | none =>
      rw [matchFlags_cons_none hpos, keptOf_cons_false, evictedOf_cons_false,
        idxCount_cons, idxCount_cons]
      have hih := ih allowed
      omega

theorem matchRem_le (cs : List ChunkEnt) (allowed : List IVec2) (i : IVec2) :
    List.count i (matchRem cs allowed) ≤ List.count i allowed := by
  have := kept_add_rem cs allowed i
  omega

theorem evicted_imp_rem_zero (cs : List ChunkEnt) (allowed : List IVec2) (i : IVec2)
    (h : idxCount i (evictedOf (matchFlags cs allowed)) ≠ 0) :
    List.count i (matchRem cs allowed) = 0 := by
  induction cs generalizing allowed with
  | nil => simp [matchFlags, evictedOf, idxCount] at h
  | cons c cs ih =>
    cases hpos : position c.index allowed with
    | some pos =>
      rw [matchFlags_cons_some hpos, evictedOf_cons_true] at h
      rw [matchRem_cons_some hpos]
      exact ih (swapRemove allowed pos) h
    | none =>
      rw [matchFlags_cons_none hpos, evictedOf_cons_false, idxCount_cons] at h
      rw [matchRem_cons_none hpos]
      by_cases hci : c.index = i
      · subst hci
        have hnone : List.count c.index allowed = 0 :=
          List.count_eq_zero_of_not_mem (position_eq_none.mp hpos)
        have hle := matchRem_le cs allowed c.index
        omega
      · rw [if_neg hci] at h
        exact ih allowed (by omega)

theorem matchFlags_all_true (cs : List ChunkEnt) (allowed : List IVec2)
    (h : ∀ i, idxCount i cs ≤ List.count i allowed) :
    matchFlags cs allowed = cs.map (fun c => (c, true)) := by
  induction cs generalizing allowed with
  | nil => simp [matchFlags]
  | cons c cs ih =>
    have hmem : c.index ∈ allowed := by
      have h1 := h c.index
      rw [idxCount_cons, if_pos rfl] at h1
      exact List.count_pos_iff.mp (by omega)
    obtain ⟨pos, hpos⟩ := position_of_mem hmem
    rw [matchFlags_cons_some hpos, List.map_cons]
    have hrec : ∀ i, idxCount i cs ≤ List.count i (swapRemove allowed pos) := by
      intro i
      have hsw := count_swapRemove hpos i
      have h1 := h i
      rw [idxCount_cons] at h1
      by_cases hci : c.index = i
      · rw [if_pos hci] at hsw h1
        omega
      · rw [if_neg hci] at hsw h1
        omega
    rw [ih (swapRemove allowed pos) hrec]

theorem keptOf_map_true (cs : List ChunkEnt) :
    keptOf (cs.map (fun c => (c, true))) = cs := by
  induction cs with
  | nil => rfl
  | cons c cs ih =>
    rw [List.map_cons, keptOf_cons_true, ih]

theorem evictedOf_map_true (cs : List ChunkEnt) :
    evictedOf (cs.map (fun c => (c, true))) = [] := by
  induction cs with
  | nil => rfl
  | cons c cs ih =>
    rw [List.map_cons, evictedOf_cons_true, ih]

/-! ### Counting lemmas for the pending-task phase -/

theorem filterPending_cons_some {t : IVec2} {ts allowed : List IVec2} {pos : Nat}
    (h : position t allowed = some pos) :
    filterPending (t :: ts) allowed = filterPending ts (swapRemove allowed pos) := by
  simp only [filterPending, h]

theorem filterPending_cons_none {t : IVec2} {ts allowed : List IVec2}
    (h : position t allowed = none) :
    filterPending (t :: ts) allowed = filterPending ts allowed := by
  simp only [filterPending, h]

theorem filterPending_le (ts allowed : List IVec2) (i : IVec2) :
    List.count i (filterPending ts allowed) ≤ List.count i allowed := by
  induction ts generalizing allowed with
  | nil => simp [filterPending]
  | cons t ts ih =>
    cases hpos : position t allowed with
    | some pos =>
      rw [filterPending_cons_some hpos]
      have hsw := count_swapRemove hpos i
      have hih := ih (swapRemove allowed pos)
      omega
    | none =>
      rw [filterPending_cons_none hpos]
      exact ih allowed

theorem filterPending_ge (ts allowed : List IVec2) (i : IVec2) :
    List.count i allowed ≤ List.count i (filterPending ts allowed) + List.count i ts := by
  induction ts generalizing allowed with
  | nil => simp [filterPending]
  | cons t ts ih =>
    rw [List.count_cons]
    cases hpos : position t allowed with
    | some pos =>
      rw [filterPending_cons_some hpos]
      have hsw := count_swapRemove hpos i
      have hih := ih (swapRemove allowed pos)
      simp only [beq_iff_eq] at *
      omega
    | none =>
      rw [filterPending_cons_none hpos]
      have hih := ih allowed
      omega

theorem filterPending_exact (ts allowed : List IVec2) (i : IVec2)
    (h : List.count i (filterPending ts allowed) ≠ 0) :
    List.count i (filterPending ts allowed) + List.count i ts = List.count i allowed := by
  induction ts generalizing allowed with
  | nil => simp [filterPending]
  | cons t ts ih =>
    rw [List.count_cons]
    cases hpos : position t allowed with
    | some pos =>
      rw [filterPending_cons_some hpos] at h ⊢
      have hsw := count_swapRemove hpos i
      have hih := ih (swapRemove allowed pos) h
      simp only [beq_iff_eq] at *
      omega
    | none =>
      rw [filterPending_cons_none hpos] at h ⊢
      have hih := ih allowed h
      by_cases hti : t = i
      · subst hti
        have hnone : List.count t allowed = 0 :=
          List.count_eq_zero_of_not_mem (position_eq_none.mp hpos)
        have hle := filterPending_le ts allowed t
        omega
      · simp only [beq_iff_eq, if_neg hti]
        omega

theorem count_filter_eq {α : Type} [BEq α] [LawfulBEq α] (p : α → Bool) (l : List α) (a : α) :
    List.count a (l.filter p) = if p a then List.count a l else 0 := by
  by_cases hpa : p a
  · rw [if_pos hpa, List.count_filter hpa]
  · rw [if_neg hpa]
    refine List.count_eq_zero.mpr (fun hmem => ?_)
    exact hpa (List.of_mem_filter hmem)

/-! ### Lemmas about the save-and-despawn flush -/

theorem extract_isSome_of_mem (i : IVec2) (chunks : List ChunkEnt) (c : ChunkEnt)
    (hc : c ∈ chunks) (hi : c.index = i) :
    (extract_chunk_data i chunks).isSome = true := by
  unfold extract_chunk_data
  cases hf : chunks.find? (fun c => c.index = i) with
  | none =>
    have := List.find?_eq_none.mp hf c hc
    simp [hi] at this
  | some d => simp

theorem flushEvicts_panicked (done : List ChunkEnt) (fl : List (ChunkEnt × Bool)) :
    (flushEvicts done fl).2 = false := by
  induction fl generalizing done with
  | nil => rfl
  | cons cb rest ih =>
    obtain ⟨c, b⟩ := cb
    cases b with
    | true =>
      simp only [flushEvicts]
      exact ih (done ++ [c])
    | false =>
      have hs := extract_isSome_of_mem c.index (done ++ c :: rest.map (·.1)) c
        (by simp) rfl
      obtain ⟨cd, hcd⟩ := Option.isSome_iff_exists.mp hs
      simp only [flushEvicts, hcd]
      exact ih done

theorem flushEvicts_countP (done : List ChunkEnt) (fl : List (ChunkEnt × Bool)) (i : IVec2) :
    List.countP (fun s => s.1 = i) (flushEvicts done fl).1
      = idxCount i (evictedOf fl) := by
  induction fl generalizing done with
  | nil => simp [flushEvicts, evictedOf, idxCount]
  | cons cb rest ih =>
    obtain ⟨c, b⟩ := cb
    cases b with
    | true =>
      simp only [flushEvicts, evictedOf_cons_true]
      exact ih (done ++ [c])
    | false =>
      have hs := extract_isSome_of_mem c.index (done ++ c :: rest.map (·.1)) c
        (by simp) rfl
      obtain ⟨cd, hcd⟩ := Option.isSome_iff_exists.mp hs
      simp only [flushEvicts, hcd, evictedOf_cons_false, idxCount_cons, List.countP_cons]
      have hih := ih done
      simp only [decide_eq_true_eq]
      omega

theorem flushEvicts_map_true (done : List ChunkEnt) (cs : List ChunkEnt) :
    flushEvicts done (cs.map (fun c => (c, true))) = ([], false) := by
  induction cs generalizing done with
  | nil => rfl
  | cons c cs ih =>
    rw [List.map_cons]
    simp only [flushEvicts]
    exact ih (done ++ [c])

theorem flushEvicts_snapshot (fl : List (ChunkEnt × Bool)) (done : List ChunkEnt)
    (c : ChunkEnt) (i : IVec2)
    (hu : idxCount i (done ++ fl.map (·.1)) = 1)
    (hmem : (c, false) ∈ fl) (hci : c.index = i) :
    (i, ({ chunk_index := i,
           tiles := c.tiles.map (fun t => { tile_index := t.pos, ground := t.ground }) } : ChunkData))
      ∈ (flushEvicts done fl).1 := by
  subst hci
  induction fl generalizing done with
  | nil => simp at hmem
  | cons db rest ih =>
    obtain ⟨d, b⟩ := db
    rcases List.mem_cons.mp hmem with hhead | htail
    · rw [Prod.ext_iff] at hhead
      obtain ⟨hcd, hbf⟩ := hhead
      simp only at hcd hbf
      subst hcd
      subst hbf
      have hcounts : idxCount c.index done = 0 := by
        rw [List.map_cons, idxCount_append, idxCount_cons, if_pos rfl] at hu
        omega
      have hdone : done.find? (fun x => x.index = c.index) = none := by
        refine List.find?_eq_none.mpr (fun x hx => ?_)
        have := List.countP_eq_zero.mp hcounts x hx
        simpa using this
      have hfind : (done ++ c :: rest.map (·.1)).find? (fun x => x.index = c.index) = some c := by
        rw [List.find?_append, hdone, Option.none_or]
        exact List.find?_cons_of_pos _ (by simp)
      have hext : extract_chunk_data c.index (done ++ c :: rest.map (·.1))
          = some { chunk_index := c.index,
                   tiles := c.tiles.map (fun t => { tile_index := t.pos, ground := t.ground }) } := by
        unfold extract_chunk_data
        rw [hfind]
        rfl
      simp only [flushEvicts, hext]
      exact List.mem_cons_self _ _
    · cases b with
      | true =>
        simp only [flushEvicts]
        refine ih (done ++ [d]) htail ?_
        rw [List.append_assoc]
        simpa using hu
      | false =>
        have hcmem : c ∈ rest.map (·.1) := List.mem_map.mpr ⟨(c, false), htail, rfl⟩
        have hcpos : 0 < idxCount c.index (rest.map (·.1)) :=
          List.countP_pos_iff.mpr ⟨c, hcmem, by simp⟩
        have hdne : ¬(d.index = c.index) := by
          intro hdc
          rw [List.map_cons, idxCount_append, idxCount_cons, if_pos hdc] at hu
          omega
        have hs := extract_isSome_of_mem d.index (done ++ d :: rest.map (·.1)) d
          (by simp) rfl
        obtain ⟨cd, hcd⟩ := Option.isSome_iff_exists.mp hs
        simp only [flushEvicts, hcd]
        refine List.mem_cons_of_mem _ (ih done htail ?_)
        rw [List.map_cons, idxCount_append, idxCount_cons, if_neg hdne] at hu
        rw [idxCount_append]
        omega

/-! ### The resolution step, per-index accounting -/

theorem gen_index (i : IVec2) : (spawn_chunk_gen i).index = i := rfl

theorem idxCount_map_gen (l : List IVec2) (i : IVec2) :
    idxCount i (l.map spawn_chunk_gen) = List.count i l := by
  induction l with
  | nil => rfl
  | cons a l ih =>
    rw [List.map_cons, idxCount_cons, List.count_cons, ih]
    by_cases hai : a = i
    · simp [gen_index, hai]
    · simp [gen_index, hai]

theorem manage_next_chunks (S : WState) (allowed : List IVec2) :
    (manage_loaded_chunks S allowed).next.chunks
      = keptOf (matchFlags S.chunks allowed)
        ++ ((filterPending S.tasks (matchRem S.chunks allowed)).filter
              (fun i => (S.store i).isNone)).map spawn_chunk_gen := rfl

theorem manage_next_tasks (S : WState) (allowed : List IVec2) :
    (manage_loaded_chunks S allowed).next.tasks
      = S.tasks ++ (filterPending S.tasks (matchRem S.chunks allowed)).filter
          (fun i => (S.store i).isSome) := rfl

theorem manage_next_store (S : WState) (allowed : List IVec2) :
    (manage_loaded_chunks S allowed).next.store = S.store := rfl

theorem manage_loads (S : WState) (allowed : List IVec2) :
    (manage_loaded_chunks S allowed).loads
      = (filterPending S.tasks (matchRem S.chunks allowed)).filter
          (fun i => (S.store i).isSome) := rfl

theorem manage_gens (S : WState) (allowed : List IVec2) :
    (manage_loaded_chunks S allowed).gens
      = (filterPending S.tasks (matchRem S.chunks allowed)).filter
          (fun i => (S.store i).isNone) := rfl

theorem manage_saves (S : WState) (allowed : List IVec2) :
    (manage_loaded_chunks S allowed).saves
      = (flushEvicts [] (matchFlags S.chunks allowed)).1 := rfl

theorem manage_evicted (S : WState) (allowed : List IVec2) :
    (manage_loaded_chunks S allowed).evicted
      = (evictedOf (matchFlags S.chunks allowed)).map (·.index) := rfl

theorem manage_panicked (S : WState) (allowed : List IVec2) :
    (manage_loaded_chunks S allowed).panicked
      = (flushEvicts [] (matchFlags S.chunks allowed)).2 := rfl

theorem wstateFieldsEq {a b : WState} (h1 : a.chunks = b.chunks) (h2 : a.tasks = b.tasks)
    (h3 : a.store = b.store) : a = b := by
  cases a
  cases b
  simp only at h1 h2 h3
  rw [h1, h2, h3]

theorem tickResultFieldsEq {a b : TickResult} (h1 : a.next = b.next) (h2 : a.saves = b.saves)
    (h3 : a.loads = b.loads) (h4 : a.gens = b.gens) (h5 : a.evicted = b.evicted)
    (h6 : a.panicked = b.panicked) : a = b := by
  cases a
  cases b
  simp only at h1 h2 h3 h4 h5 h6
  rw [h1, h2, h3, h4, h5, h6]

theorem eq_nil_of_count_eq_zero {α : Type} [BEq α] [LawfulBEq α] {l : List α}
    (h : ∀ i, List.count i l = 0) : l = [] := by
  cases l with
  | nil => rfl
  | cons a l =>
    have := h a
    simp [List.count_cons] at this

/-- The chunk-entity count of the post-tick world never exceeds the
allowed multiset. -/
theorem manage_chunks_le_allowed (S : WState) (allowed : List IVec2) (i : IVec2) :
    idxCount i (manage_loaded_chunks S allowed).next.chunks ≤ List.count i allowed := by
  rw [manage_next_chunks, idxCount_append, idxCount_map_gen]
  have hk := kept_add_rem S.chunks allowed i
  have hf := filterPending_le S.tasks (matchRem S.chunks allowed) i
  have hgen := count_filter_eq (fun i => (S.store i).isNone)
    (filterPending S.tasks (matchRem S.chunks allowed)) i
  rw [hgen]
  by_cases hs : (S.store i).isNone <;> simp [hs] <;> omega

/-- Running the resolution step again on its own output with the same
allowed list is a no-op: no saves, loads, generations or evictions, and
an unchanged world state. -/
theorem manage_idempotent_core (S : WState) (allowed : List IVec2) :
    manage_loaded_chunks (manage_loaded_chunks S allowed).next allowed
      = { next := (manage_loaded_chunks S allowed).next,
          saves := [], loads := [], gens := [], evicted := [], panicked := false } := by
  set S1 := (manage_loaded_chunks S allowed).next with hS1
  have hr1 : ∀ i, idxCount i S1.chunks ≤ List.count i allowed := fun i =>
    manage_chunks_le_allowed S allowed i
  have hflags : matchFlags S1.chunks allowed = S1.chunks.map (fun c => (c, true)) :=
    matchFlags_all_true S1.chunks allowed hr1
  have hrem2 : filterPending S1.tasks (matchRem S1.chunks allowed) = [] := by
    refine eq_nil_of_count_eq_zero (fun i => ?_)
    by_contra hne
    have hexact := filterPending_exact S1.tasks (matchRem S1.chunks allowed) i hne
    have hk1 := kept_add_rem S1.chunks allowed i
    rw [hflags, keptOf_map_true] at hk1
    -- counts of the first tick
    have hk0 := kept_add_rem S.chunks allowed i
    have hq1 := filterPending_le S.tasks (matchRem S.chunks allowed) i
    have hq2 := filterPending_ge S.tasks (matchRem S.chunks allowed) i
    have hchunks1 : idxCount i S1.chunks
        = idxCount i (keptOf (matchFlags S.chunks allowed))
          + List.count i ((filterPending S.tasks (matchRem S.chunks allowed)).filter
              (fun i => (S.store i).isNone)) := by
      rw [hS1, manage_next_chunks, idxCount_append, idxCount_map_gen]
    have htasks1 : List.count i S1.tasks
        = List.count i S.tasks
          + List.count i ((filterPending S.tasks (matchRem S.chunks allowed)).filter
              (fun i => (S.store i).isSome)) := by
      rw [hS1, manage_next_tasks, List.count_append]
    have hgen := count_filter_eq (fun i => (S.store i).isNone)
      (filterPending S.tasks (matchRem S.chunks allowed)) i
    have hload := count_filter_eq (fun i => (S.store i).isSome)
      (filterPending S.tasks (matchRem S.chunks allowed)) i
    cases hcase : (S.store i) with
    | none =>
      rw [hcase] at hgen hload
      simp only [Option.isNone_none, Option.isSome_none, if_true, if_false] at hgen hload
      omega
    | some bytes =>
      rw [hcase] at hgen hload
      simp only [Option.isNone_some, Option.isSome_some, if_true, if_false] at hgen hload
      omega
  have hnext : (manage_loaded_chunks S1 allowed).next = S1 := by
    refine wstateFieldsEq ?_ ?_ ?_
    · rw [manage_next_chunks, hrem2, hflags, keptOf_map_true]
      simp
    · rw [manage_next_tasks, hrem2]
      simp
    · rw [manage_next_store]
  refine tickResultFieldsEq hnext ?_ ?_ ?_ ?_ ?_
  · rw [manage_saves, hflags, flushEvicts_map_true]
  · rw [manage_loads, hrem2]
    rfl
  · rw [manage_gens, hrem2]
    rfl
  · rw [manage_evicted, hflags, evictedOf_map_true]
    rfl
  · rw [manage_panicked, hflags, flushEvicts_map_true]

/-! ### The residency invariant -/

theorem count_eraseIdx {α : Type} [DecidableEq α] [BEq α] [LawfulBEq α]
    {l : List α} {k : Nat} {v : α}
    (h : l[k]? = some v) (x : α) :
    List.count x (l.eraseIdx k) + (if v = x then 1 else 0) = List.count x l := by
  induction l generalizing k with
  | nil => simp at h
  | cons a as ih =>
    cases k with
    | zero =>
      simp only [List.getElem?_cons_zero, Option.some.injEq] at h
      subst h
      rw [List.eraseIdx_cons_zero, List.count_cons]
      simp only [beq_iff_eq]
    | succ m =>
      rw [List.getElem?_cons_succ] at h
      rw [List.eraseIdx_cons_succ, List.count_cons, List.count_cons]
      have := ih h
      simp only [beq_iff_eq] at *
      omega

theorem mem_of_getElem? {α : Type} {l : List α} {k : Nat} {v : α} (h : l[k]? = some v) :
    v ∈ l := by
  obtain ⟨hk, hv⟩ := List.getElem?_eq_some_iff.mp h
  exact hv ▸ List.getElem_mem hk

theorem spawn_chunk_stub_some {cd : ChunkData} {ent : ChunkEnt}
    (h : spawn_chunk_stub cd = some ent) :
    ent.index = cd.chunk_index
    ∧ ent.tiles = cd.tiles.map (fun t => { pos := t.tile_index, ground := t.ground }) := by
  unfold spawn_chunk_stub at h
  by_cases hall : cd.tiles.all
      (fun t => tile_to_index t.tile_index < TILES_PER_CHUNK * TILES_PER_CHUNK)
  · rw [if_pos hall] at h
    have he := Option.some.inj h
    rw [← he]
    exact ⟨rfl, rfl⟩
  · rw [if_neg hall] at h
    exact absurd h (by simp)

theorem spawn_chunk_stub_of_inbounds {cd : ChunkData}
    (h : ∀ t ∈ cd.tiles, tile_to_index t.tile_index < TILES_PER_CHUNK * TILES_PER_CHUNK) :
    spawn_chunk_stub cd
      = some { index := cd.chunk_index,
               tiles := cd.tiles.map (fun t => { pos := t.tile_index, ground := t.ground }) } := by
  unfold spawn_chunk_stub
  rw [if_pos (List.all_eq_true.mpr (fun t ht => decide_eq_true (h t ht)))]

theorem spawn_chunk_stub_of_oob {cd : ChunkData}
    (h : ∃ t ∈ cd.tiles, TILES_PER_CHUNK * TILES_PER_CHUNK ≤ tile_to_index t.tile_index) :
    spawn_chunk_stub cd = none := by
  unfold spawn_chunk_stub
  obtain ⟨t, ht, hle⟩ := h
  rw [if_neg]
  intro hall
  have := List.all_eq_true.mp hall t ht
  simp at this
  omega

theorem task_poll_nop {S : WState} {k : Nat} (h : S.tasks[k]? = none) :
    task_poll S k = some S := by
  simp only [task_poll, h]

theorem task_poll_io_err {S : WState} {k : Nat} {i : IVec2}
    (hk : S.tasks[k]? = some i) (hst : S.store i = none) :
    task_poll S k
      = some { chunks := S.chunks, tasks := S.tasks.eraseIdx k, store := S.store } := by
  simp only [task_poll, hk, hst]

theorem task_poll_decode_err {S : WState} {k : Nat} {i : IVec2} {bytes : List Tok}
    (hk : S.tasks[k]? = some i) (hst : S.store i = some bytes)
    (hdec : decodeChunkData bytes = none) :
    task_poll S k
      = some { chunks := S.chunks, tasks := S.tasks.eraseIdx k, store := S.store } := by
  simp only [task_poll, hk, hst, hdec]

theorem task_poll_spawn {S : WState} {k : Nat} {i : IVec2} {bytes : List Tok}
    {cd : ChunkData} {ent : ChunkEnt}
    (hk : S.tasks[k]? = some i) (hst : S.store i = some bytes)
    (hdec : decodeChunkData bytes = some cd) (hsp : spawn_chunk_stub cd = some ent) :
    task_poll S k
      = some { chunks := S.chunks ++ [ent], tasks := S.tasks.eraseIdx k, store := S.store } := by
  simp only [task_poll, hk, hst, hdec, hsp]

theorem task_poll_panic {S : WState} {k : Nat} {i : IVec2} {bytes : List Tok}
    {cd : ChunkData}
    (hk : S.tasks[k]? = some i) (hst : S.store i = some bytes)
    (hdec : decodeChunkData bytes = some cd) (hsp : spawn_chunk_stub cd = none) :
    task_poll S k = none := by
  simp only [task_poll, hk, hst, hdec, hsp]

theorem count_filter_isSome_zero {f : IVec2 → Option (List Tok)} (l : List IVec2) (i : IVec2)
    (h : f i = none) :
    List.count i (l.filter (fun j => (f j).isSome)) = 0 := by
  refine List.count_eq_zero.mpr (fun hm => ?_)
  have hp := List.of_mem_filter hm
  rw [h] at hp
  simp at hp

theorem count_filter_isSome_all {f : IVec2 → Option (List Tok)} (l : List IVec2) (i : IVec2)
    {bytes : List Tok} (h : f i = some bytes) :
    List.count i (l.filter (fun j => (f j).isSome)) = List.count i l :=
  List.count_filter (by rw [h]; rfl)

theorem count_filter_isNone_all {f : IVec2 → Option (List Tok)} (l : List IVec2) (i : IVec2)
    (h : f i = none) :
    List.count i (l.filter (fun j => (f j).isNone)) = List.count i l :=
  List.count_filter (by rw [h]; rfl)

theorem count_filter_isNone_zero {f : IVec2 → Option (List Tok)} (l : List IVec2) (i : IVec2)
    {bytes : List Tok} (h : f i = some bytes) :
    List.count i (l.filter (fun j => (f j).isNone)) = 0 := by
  refine List.count_eq_zero.mpr (fun hm => ?_)
  have hp := List.of_mem_filter hm
  rw [h] at hp
  simp at hp

theorem inv_tick (S : WState) (allowed : List IVec2)
    (hcov : ∀ i, List.count i allowed ≤ 1) (hinv : Inv S) :
    Inv (manage_loaded_chunks S allowed).next := by
  obtain ⟨hstore, hcount⟩ := hinv
  refine ⟨hstore, fun i => ?_⟩
  rw [manage_next_chunks, manage_next_tasks, idxCount_append, idxCount_map_gen,
    List.count_append]
  have ha := hcov i
  have hri := hcount i
  have hk := kept_add_rem S.chunks allowed i
  have hke := kept_add_evicted S.chunks allowed i
  have hq1 := filterPending_le S.tasks (matchRem S.chunks allowed) i
  have hq2 := filterPending_ge S.tasks (matchRem S.chunks allowed) i
  by_cases h0 : List.count i (filterPending S.tasks (matchRem S.chunks allowed)) = 0
  · cases hcase : (S.store i) with
    | none =>
      rw [count_filter_isSome_zero _ i hcase, count_filter_isNone_all _ i hcase]
      omega
    | some bytes =>
      rw [count_filter_isSome_all _ i hcase, count_filter_isNone_zero _ i hcase]
      omega
  · have hq3 := filterPending_exact S.tasks (matchRem S.chunks allowed) i h0
    cases hcase : (S.store i) with
    | none =>
      rw [count_filter_isSome_zero _ i hcase, count_filter_isNone_all _ i hcase]
      omega
    | some bytes =>
      rw [count_filter_isSome_all _ i hcase, count_filter_isNone_zero _ i hcase]
      omega

theorem inv_poll (S S' : WState) (k : Nat) (h : task_poll S k = some S')
    (hinv : Inv S) : Inv S' := by
  obtain ⟨hstore, hcount⟩ := hinv
  cases hk : S.tasks[k]? with
  | none =>
    rw [task_poll_nop hk] at h
    rw [← Option.some.inj h]
    exact ⟨hstore, hcount⟩
  | some i0 =>
    have herase : ∀ i, List.count i (S.tasks.eraseIdx k)
        + (if i0 = i then 1 else 0) = List.count i S.tasks := fun i => count_eraseIdx hk i
    cases hst : S.store i0 with
    | none =>
      rw [task_poll_io_err hk hst] at h
      rw [← Option.some.inj h]
      refine ⟨hstore, fun i => ?_⟩
      have hri := hcount i
      have hc := herase i
      show idxCount i S.chunks + List.count i (S.tasks.eraseIdx k) ≤ 1
      by_cases hii : i0 = i
      · rw [if_pos hii] at hc
        omega
      · rw [if_neg hii] at hc
        omega
    | some bytes =>
      cases hdec : decodeChunkData bytes with
      | none =>
        rw [task_poll_decode_err hk hst hdec] at h
        rw [← Option.some.inj h]
        refine ⟨hstore, fun i => ?_⟩
        have hri := hcount i
        have hc := herase i
        show idxCount i S.chunks + List.count i (S.tasks.eraseIdx k) ≤ 1
        by_cases hii : i0 = i
        · rw [if_pos hii] at hc
          omega
        · rw [if_neg hii] at hc
          omega
      | some cd =>
        cases hsp : spawn_chunk_stub cd with
        | none =>
          rw [task_poll_panic hk hst hdec hsp] at h
          exact absurd h (by simp)
        | some ent =>
          rw [task_poll_spawn hk hst hdec hsp] at h
          rw [← Option.some.inj h]
          refine ⟨hstore, fun i => ?_⟩
          show idxCount i (S.chunks ++ [ent]) + List.count i (S.tasks.eraseIdx k) ≤ 1
          rw [idxCount_append, idxCount_cons, idxCount_nil]
          have hidx : ent.index = i0 := by
            rw [(spawn_chunk_stub_some hsp).1]
            exact hstore i0 bytes cd hst hdec
          rw [hidx]
          have hc := herase i
          have hp0 : 0 < List.count i0 S.tasks := List.count_pos_iff.mpr (mem_of_getElem? hk)
          have hri := hcount i
          have hri0 := hcount i0
          by_cases hii : i0 = i
          · rw [if_pos hii] at hc ⊢
            subst hii
            omega
          · rw [if_neg hii] at hc ⊢
            omega

theorem inv_reach {S0 S : WState} (hr : Reach S0 S) (hinv : Inv S0) : Inv S := by
  induction hr with
  | refl => exact hinv
  | step hreach hstep ih =>
    cases hstep with
    | tick viewers viewDistance hcov => exact inv_tick _ _ hcov ih
    | load _ k h => exact inv_poll _ _ k h ih

/-! ### The persistence codec round trip -/

theorem decGround_encGround (g : Ground) : decGround (encGround g) = some g := by
  cases g <;> rfl

theorem parseTile_encTile (t : TileData) (rest : List Tok) :
    parseTile (encTile t ++ rest) = some (t, rest) := by
  obtain ⟨⟨x, y⟩, g⟩ := t
  simp [encTile, parseTile]
  cases g <;> rfl

theorem parseTiles_rb (fuel : Nat) (rest : List Tok) :
    parseTiles fuel (Tok.rb :: rest) = some ([], rest) := by
  cases fuel <;> rfl

theorem parseTiles_succ_lp (f : Nat) (toks : List Tok) :
    parseTiles (f + 1) (Tok.lp :: toks)
      = (match parseTile (Tok.lp :: toks) with
         | some (t, Tok.comma :: rest) =>
           (match parseTiles f rest with
            | some (ts, rest') => some (t :: ts, rest')
            | none => none)
         | _ => none) := rfl

theorem parseTiles_enc (ts : List TileData) (fuel : Nat) (rest : List Tok)
    (hf : ts.length ≤ fuel) :
    parseTiles fuel (ts.flatMap (fun t => encTile t ++ [Tok.comma]) ++ (Tok.rb :: rest))
      = some (ts, rest) := by
  induction ts generalizing fuel rest with
  | nil => simp [parseTiles_rb]
  | cons t ts ih =>
    cases fuel with
    | zero => simp at hf
    | succ f =>
      have hsh : ((t :: ts).flatMap (fun u => encTile u ++ [Tok.comma])) ++ (Tok.rb :: rest)
          = encTile t ++ (Tok.comma ::
              (ts.flatMap (fun u => encTile u ++ [Tok.comma]) ++ (Tok.rb :: rest))) := by
        simp [List.flatMap_cons, List.append_assoc]
      rw [hsh]
      have hlen : ts.length ≤ f := by simpa using hf
      have hpt := parseTile_encTile t
        (Tok.comma :: (ts.flatMap (fun u => encTile u ++ [Tok.comma]) ++ (Tok.rb :: rest)))
      have hexp : encTile t ++ (Tok.comma ::
            (ts.flatMap (fun u => encTile u ++ [Tok.comma]) ++ (Tok.rb :: rest)))
          = Tok.lp :: (encTile t).tail ++ (Tok.comma ::
            (ts.flatMap (fun u => encTile u ++ [Tok.comma]) ++ (Tok.rb :: rest))) := by
        obtain ⟨⟨tx, ty⟩, tg⟩ := t
        rfl
      rw [hexp]
      rw [List.cons_append, parseTiles_succ_lp]
      rw [← List.cons_append, ← hexp, hpt]
      simp only [ih f rest hlen]

/-- The round trip of the persistence codec is the identity. -/
theorem decode_encode (cd : ChunkData) : decodeChunkData (encodeChunkData cd) = some cd := by
  obtain ⟨⟨ix, iy⟩, ts⟩ := cd
  have hlen : ts.length ≤ (ts.flatMap (fun t => encTile t ++ [Tok.comma]) ++ [Tok.rb, Tok.rp]).length := by
    rw [List.length_append, List.length_flatMap]
    have hsum : ts.length ≤ (List.map (List.length ∘ fun t => encTile t ++ [Tok.comma]) ts).sum := by
      induction ts with
      | nil => simp
      | cons t ts ih =>
        rw [List.map_cons, List.sum_cons, List.length_cons]
        have hpos : 1 ≤ (List.length ∘ fun t => encTile t ++ [Tok.comma]) t := by
          obtain ⟨⟨x, y⟩, g⟩ := t
          simp [encTile]
        omega
    simp only [List.length_cons, List.length_nil]
    omega
  show decodeChunkData
      ([Tok.lp, Tok.ident "chunk_index", Tok.colon, Tok.lp, Tok.int ix, Tok.comma, Tok.int iy,
        Tok.rp, Tok.comma, Tok.ident "tiles", Tok.colon, Tok.lb]
       ++ (ts.flatMap (fun t => encTile t ++ [Tok.comma]) ++ [Tok.rb, Tok.rp])) = _
  have hbody : parseTiles
      (ts.flatMap (fun t => encTile t ++ [Tok.comma]) ++ [Tok.rb, Tok.rp]).length
      (ts.flatMap (fun t => encTile t ++ [Tok.comma]) ++ (Tok.rb :: [Tok.rp]))
      = some (ts, [Tok.rp]) := parseTiles_enc ts _ [Tok.rp] hlen
  simp only [List.cons_append, List.nil_append]
  rw [decodeChunkData]
  rw [hbody]

/-! ### Injectivity of the backing-store key -/

theorem digitChar_val : ∀ d, d < 10 → (Nat.digitChar d).toNat - 48 = d := by decide

theorem digitChar_not_special : ∀ d, d < 10 →
    Nat.digitChar d ≠ '_' ∧ Nat.digitChar d ≠ '-' := by decide

theorem natCharsAux_foldl (fuel : Nat) : ∀ n acc, n < fuel →
    List.foldl (fun acc c => 10 * acc + (c.toNat - 48)) acc (natCharsAux fuel n)
      = acc * 10 ^ (natCharsAux fuel n).length + n := by
  induction fuel with
  | zero => intro n acc h; omega
  | succ f ih =>
    intro n acc h
    by_cases h10 : n < 10
    · simp only [natCharsAux, if_pos h10]
      simp only [List.foldl_cons, List.foldl_nil, List.length_cons, List.length_nil]
      rw [digitChar_val n h10]
      simp [pow_one]
      omega
    · simp only [natCharsAux, if_neg h10]
      have hdivlt : n / 10 < f := by
        have h1 : n / 10 < n := Nat.div_lt_self (by omega) (by omega)
        omega
      rw [List.foldl_append, ih (n / 10) acc hdivlt]
      simp only [List.foldl_cons, List.foldl_nil, List.length_append, List.length_cons,
        List.length_nil]
      rw [digitChar_val (n % 10) (Nat.mod_lt n (by omega))]
      have hpow : 10 ^ ((natCharsAux f (n / 10)).length + (0 + 1))
          = 10 ^ (natCharsAux f (n / 10)).length * 10 := by
        rw [Nat.add_comm 0 1, pow_succ]
      rw [hpow]
      have hdm := Nat.div_add_mod n 10
      ring_nf
      omega

theorem charsVal_natChars (n : Nat) : charsVal (natChars n) = n := by
  unfold charsVal natChars
  rw [natCharsAux_foldl (n + 1) n 0 (Nat.lt_succ_self n)]
  simp

theorem natChars_inj {a b : Nat} (h : natChars a = natChars b) : a = b := by
  have ha := charsVal_natChars a
  have hb := charsVal_natChars b
  rw [h] at ha
  omega

theorem natCharsAux_mem (fuel : Nat) : ∀ n c, c ∈ natCharsAux fuel n →
    ∃ d, d < 10 ∧ c = Nat.digitChar d := by
  induction fuel with
  | zero => intro n c hc; simp [natCharsAux] at hc
  | succ f ih =>
    intro n c hc
    by_cases h10 : n < 10
    · simp only [natCharsAux, if_pos h10, List.mem_singleton] at hc
      exact ⟨n, h10, hc⟩
    · simp only [natCharsAux, if_neg h10, List.mem_append, List.mem_singleton] at hc
      rcases hc with hc | hc
      · exact ih (n / 10) c hc
      · exact ⟨n % 10, Nat.mod_lt n (by omega), hc⟩

theorem natChars_no_special {n : Nat} {c : Char} (hc : c ∈ natChars n) :
    c ≠ '_' ∧ c ≠ '-' := by
  obtain ⟨d, hd, rfl⟩ := natCharsAux_mem (n + 1) n c hc
  exact digitChar_not_special d hd

theorem natChars_ne_nil (n : Nat) : natChars n ≠ [] := by
  unfold natChars natCharsAux
  by_cases h10 : n < 10
  · simp [if_pos h10]
  · simp [if_neg h10]

theorem intChars_no_underscore {x : Int} {c : Char} (hc : c ∈ intChars x) : c ≠ '_' := by
  unfold intChars at hc
  by_cases hx : x < 0
  · rw [if_pos hx] at hc
    rcases List.mem_cons.mp hc with hc | hc
    · subst hc; decide
    · exact (natChars_no_special hc).1
  · rw [if_neg hx] at hc
    exact (natChars_no_special hc).1

theorem intChars_inj {a b : Int} (h : intChars a = intChars b) : a = b := by
  unfold intChars at h
  by_cases hA : a < 0 <;> by_cases hB : b < 0
  · rw [if_pos hA, if_pos hB] at h
    have := natChars_inj (List.cons.injEq .. ▸ h).2
    omega
  · rw [if_pos hA, if_neg hB] at h
    have hmem : '-' ∈ natChars b.natAbs := by
      rw [← h]
      exact List.mem_cons_self _ _
    exact absurd rfl (natChars_no_special hmem).2
  · rw [if_neg hA, if_pos hB] at h
    have hmem : '-' ∈ natChars a.natAbs := by
      rw [h]
      exact List.mem_cons_self _ _
    exact absurd rfl (natChars_no_special hmem).2
  · rw [if_neg hA, if_neg hB] at h
    have := natChars_inj h
    omega

theorem sep_split {l1 r1 l2 r2 : List Char} (h1 : '_' ∉ l1) (h2 : '_' ∉ l2)
    (h : l1 ++ '_' :: r1 = l2 ++ '_' :: r2) : l1 = l2 ∧ r1 = r2 := by
  induction l1 generalizing l2 with
  | nil =>
    cases l2 with
    | nil => simpa using h
    | cons b bs =>
      simp only [List.nil_append, List.cons_append, List.cons.injEq] at h
      exact absurd (h.1 ▸ List.mem_cons_self b bs) h2
  | cons a as ih =>
    cases l2 with
    | nil =>
      simp only [List.cons_append, List.nil_append, List.cons.injEq] at h
      exact absurd (h.1 ▸ List.mem_cons_self a as) h1
    | cons b bs =>
      simp only [List.cons_append, List.cons.injEq] at h
      have h1' : '_' ∉ as := fun hm => h1 (List.mem_cons_of_mem a hm)
      have h2' : '_' ∉ bs := fun hm => h2 (List.mem_cons_of_mem b hm)
      obtain ⟨heq, hrs⟩ := ih h1' h2' h.2
      exact ⟨by rw [h.1, heq], hrs⟩

theorem chunk_file_path_inj {a b : IVec2} (h : chunk_file_path a = chunk_file_path b) :
    a = b := by
  unfold chunk_file_path at h
  simp only [List.cons_append, List.append_assoc] at h
  simp only [List.cons.injEq, true_and] at h
  have h1 : '_' ∉ intChars a.1 := fun hm => intChars_no_underscore hm rfl
  have h2 : '_' ∉ intChars b.1 := fun hm => intChars_no_underscore hm rfl
  obtain ⟨hl, hr⟩ := sep_split h1 h2 h
  have hy : intChars a.2 = intChars b.2 := List.append_cancel_right hr
  obtain ⟨a1, a2⟩ := a
  obtain ⟨b1, b2⟩ := b
  simp only at hl hy
  rw [intChars_inj hl, intChars_inj hy]

/-- A chunk whose index is not covered is flagged for eviction. -/
theorem matchFlags_flag_false {cs : List ChunkEnt} {allowed : List IVec2} {c : ChunkEnt}
    (hc : c ∈ cs) (hna : c.index ∉ allowed) : (c, false) ∈ matchFlags cs allowed := by
  induction cs generalizing allowed with
  | nil => simp at hc
  | cons d ds ih =>
    cases hpos : position d.index allowed with
    | some pos =>
      rw [matchFlags_cons_some hpos]
      rcases List.mem_cons.mp hc with hcd | hcds
      · subst hcd
        obtain ⟨hlt, hget⟩ := position_eq_some hpos
        exact absurd (hget ▸ List.getElem_mem hlt) hna
      · refine List.mem_cons_of_mem _ (ih hcds ?_)
        intro hm
        have hcnt : 0 < List.count c.index (swapRemove allowed pos) :=
          List.count_pos_iff.mpr hm
        have hzero : List.count c.index allowed = 0 :=
          List.count_eq_zero_of_not_mem hna
        have hsw := count_swapRemove hpos c.index
        omega
    | none =>
      rw [matchFlags_cons_none hpos]
      rcases List.mem_cons.mp hc with hcd | hcds
      · subst hcd
        exact List.mem_cons_self _ _
      · exact List.mem_cons_of_mem _ (ih hcds hna)

theorem filter_eq_singleton_of_countP {α : Type} {p : α → Bool} {l : List α} {x : α}
    (hcnt : List.countP p l = 1) (hx : x ∈ l) (hpx : p x = true) : l.filter p = [x] := by
  induction l with
  | nil => simp at hx
  | cons a as ih =>
    rw [List.countP_cons] at hcnt
    rcases List.mem_cons.mp hx with hxa | hxas
    · subst hxa
      rw [List.filter_cons_of_pos hpx]
      rw [if_pos hpx] at hcnt
      have hz : List.countP p as = 0 := by omega
      have : as.filter p = [] := by
        rw [List.filter_eq_nil_iff]
        exact fun a ha hpa => by
          have := List.countP_eq_zero.mp hz a ha
          exact this hpa
      rw [this]
    · by_cases hpa : p a
      · rw [if_pos hpa] at hcnt
        have hz : List.countP p as = 0 := by omega
        have := List.countP_eq_zero.mp hz x hxas
        exact absurd hpx this
      · rw [List.filter_cons_of_neg (by simpa using hpa)]
        rw [if_neg hpa] at hcnt
        exact ih (by omega) hxas

theorem map_gen_index (l : List IVec2) :
    (l.map spawn_chunk_gen).map (·.index) = l := by
  induction l with
  | nil => rfl
  | cons a l ih => simp only [List.map_cons, gen_index, ih]

/-- From the empty world with an empty backing store, one tick makes
exactly the allowed list resident (by generation). -/
theorem manage_empty_chunks (allowed : List IVec2) :
    (manage_loaded_chunks emptyW allowed).next.chunks.map (·.index) = allowed := by
  rw [manage_next_chunks]
  have hflags : matchFlags emptyW.chunks allowed = [] := rfl
  have hrem : matchRem emptyW.chunks allowed = allowed := rfl
  have hfp : filterPending emptyW.tasks (matchRem emptyW.chunks allowed) = allowed := by
    rw [hrem]
    rfl
  have hfilter : allowed.filter (fun i => (emptyW.store i).isNone) = allowed :=
    List.filter_eq_self.mpr (fun a _ => rfl)
  rw [hflags, hfp, hfilter]
  rw [show keptOf [] = [] from rfl, List.nil_append]
  exact map_gen_index allowed

theorem inv_emptyW : Inv emptyW := by
  constructor
  · intro i bytes cd hst hdec
    simp [emptyW] at hst
  · intro i
    simp [emptyW, idxCount]

theorem mem_intRange {a b x : Int} : x ∈ intRange a b ↔ a ≤ x ∧ x < b := by
  unfold intRange
  constructor
  · intro hx
    obtain ⟨k, hk, hkx⟩ := List.mem_map.mp hx
    have hk2 : (k : Int) < b - a := Int.lt_toNat.mp (List.mem_range.mp hk)
    omega
  · rintro ⟨h1, h2⟩
    refine List.mem_map.mpr ⟨(x - a).toNat, List.mem_range.mpr ?_, ?_⟩
    · refine Int.lt_toNat.mpr ?_
      rw [Int.toNat_of_nonneg (by omega)]
      omega
    · rw [Int.toNat_of_nonneg (by omega)]
      omega

/-- A load is issued for an index only when that index has no live
chunk and no in-flight load. -/
theorem manage_loads_only_fresh (S : WState) (allowed : List IVec2)
    (hcov : ∀ i, List.count i allowed ≤ 1) (i : IVec2)
    (hmem : i ∈ (manage_loaded_chunks S allowed).loads) :
    idxCount i S.chunks = 0 ∧ List.count i S.tasks = 0 := by
  rw [manage_loads] at hmem
  have hmem2 : i ∈ filterPending S.tasks (matchRem S.chunks allowed) :=
    List.mem_of_mem_filter hmem
  have hpos : 0 < List.count i (filterPending S.tasks (matchRem S.chunks allowed)) :=
    List.count_pos_iff.mpr hmem2
  have ha := hcov i
  have hk := kept_add_rem S.chunks allowed i
  have hke := kept_add_evicted S.chunks allowed i
  have hq1 := filterPending_le S.tasks (matchRem S.chunks allowed) i
  have hq3 := filterPending_exact S.tasks (matchRem S.chunks allowed) i (by omega)
  have hev : idxCount i (evictedOf (matchFlags S.chunks allowed)) = 0 := by
    by_contra hne
    have := evicted_imp_rem_zero S.chunks allowed i hne
    omega
  omega

/-! ### Claim theorems -/

/-- C1 (counterexample): the index (-3,-3) satisfies the footprint
intersection predicate of the specification for a viewer at (0,0) with
view distance 20, and it belongs to the resident set the spec names,
yet the resident set the resolution step actually produces from the
empty world does not contain it. -/
theorem C1_counterexample :
    specFootprintIntersects (0, 0) 20 ((-3 : Int), (-3 : Int))
    ∧ ((((-3 : Int), (-3 : Int)) : IVec2) ∈ specClaimedResidentSet)
    ∧ ((((-3 : Int), (-3 : Int)) : IVec2) ∉
        ((resolveTick emptyW [(qOfInt 0, qOfInt 0)] (qOfInt 20)).next.chunks.map (·.index))) := by
  refine ⟨by decide, by decide, by decide⟩

/-- C1 (amended): after one resolution tick on the empty world with an
empty backing store and a single viewer, the resident set equals the
coverage list of chunk_indices_inside, whose members are exactly the
indices in the axis-wise half-open window obtained by truncating the
view rectangle bounds toward zero and then truncating the division by
256 toward zero; in particular a viewer at (0,0) with view distance 20
resolves to the resident set (-1,-1), (-1,0), (0,-1), (0,0). -/
theorem C1_resident_window (px py vd : QVal) :
    ((resolveTick emptyW [(px, py)] vd).next.chunks.map (·.index)) = playerCoverage (px, py) vd
    ∧ (∀ i : IVec2, i ∈ playerCoverage (px, py) vd ↔
        (Int.tdiv (qTrunc (qSub px (qHalf (qMulInt vd TILE_LENGTH)))) 256 ≤ i.1
         ∧ i.1 < Int.tdiv (qTrunc (qAdd px (qHalf (qMulInt vd TILE_LENGTH)))) 256
         ∧ Int.tdiv (qTrunc (qSub py (qHalf (qMulInt vd TILE_LENGTH)))) 256 ≤ i.2
         ∧ i.2 < Int.tdiv (qTrunc (qAdd py (qHalf (qMulInt vd TILE_LENGTH)))) 256))
    ∧ ((resolveTick emptyW [(qOfInt 0, qOfInt 0)] (qOfInt 20)).next.chunks.map (·.index)
        = [((-1 : Int), (-1 : Int)), (-1, 0), (0, -1), (0, 0)]) := by
  refine ⟨?_, ?_, by decide⟩
  · have hallow : allowedIndices [(px, py)] vd = playerCoverage (px, py) vd := by
      simp [allowedIndices]
    show (manage_loaded_chunks emptyW (allowedIndices [(px, py)] vd)).next.chunks.map (·.index)
        = _
    rw [manage_empty_chunks, hallow]
  · intro i
    obtain ⟨ix, iy⟩ := i
    show (ix, iy) ∈ chunk_indices_inside (viewBorder (px, py) vd) ↔ _
    unfold viewBorder rectFromCenterSize chunk_indices_inside
    dsimp only
    have hupc : ((TILES_PER_CHUNK : Int) * TILE_LENGTH) = 256 := by decide
    rw [hupc]
    simp only [List.mem_flatMap, List.mem_map, mem_intRange]
    constructor
    · rintro ⟨x, ⟨hx1, hx2⟩, y, ⟨hy1, hy2⟩, heq⟩
      rw [Prod.mk.injEq] at heq
      obtain ⟨rfl, rfl⟩ := heq
      exact ⟨hx1, hx2, hy1, hy2⟩
    · rintro ⟨h1, h2, h3, h4⟩
      exact ⟨ix, ⟨h1, h2⟩, iy, ⟨h3, h4⟩, rfl⟩

/-- C2 (counterexample): with two viewers at the same position and a
persisted file for (0,0), a single resolution tick from a world with
no residents and no pending loads issues two loads for (0,0), so two
in-flight load tasks for the same index exist at once. -/
theorem C2_counterexample :
    ((resolveTick { chunks := [], tasks := [], store := corruptStore00 }
        [(qOfInt 0, qOfInt 0), (qOfInt 0, qOfInt 0)] (qOfInt 20)).next.tasks
      = [((0 : Int), (0 : Int)), ((0 : Int), (0 : Int))])
    ∧ ¬ (List.count (((0 : Int), (0 : Int)) : IVec2)
          (resolveTick { chunks := [], tasks := [], store := corruptStore00 }
            [(qOfInt 0, qOfInt 0), (qOfInt 0, qOfInt 0)] (qOfInt 20)).next.tasks ≤ 1) := by
  refine ⟨by decide, by decide⟩

/-- C2 (amended): provided no index is covered by two viewers in the
same tick, at most one in-flight load exists per index in every state
reachable by resolution ticks and load completions from a state
satisfying the residency invariant, and a tick issues a load for an
index only when that index has neither a live chunk nor a pending
load. -/
theorem C2_single_pending_load (S0 S : WState) (hinv : Inv S0) (hr : Reach S0 S) :
    (∀ i, List.count i S.tasks ≤ 1)
    ∧ (∀ viewers vd i, CovOnce viewers vd →
        i ∈ (resolveTick S viewers vd).loads →
        idxCount i S.chunks = 0 ∧ List.count i S.tasks = 0) := by
  have hS := inv_reach hr hinv
  refine ⟨fun i => ?_, fun viewers vd i hcov hmem => ?_⟩
  · have := hS.2 i
    omega
  · exact manage_loads_only_fresh S _ (fun j => hcov j) i hmem

/-- C2 (witness): the amended theorem applies to the empty world. -/
theorem C2_single_pending_load_witness :
    List.count (((0 : Int), (0 : Int)) : IVec2) emptyW.tasks ≤ 1 :=
  (C2_single_pending_load emptyW emptyW inv_emptyW (Reach.refl emptyW)).1 ((0 : Int), (0 : Int))

/-- C3: the resolution step is idempotent: running it again on its own
output with the same viewer set and no completions in between leaves
the world state unchanged and issues no save, load, generation or
eviction commands. -/
theorem C3_resolution_idempotent (S : WState) (viewers : List (QVal × QVal)) (vd : QVal) :
    resolveTick (resolveTick S viewers vd).next viewers vd
      = { next := (resolveTick S viewers vd).next,
          saves := [], loads := [], gens := [], evicted := [], panicked := false } :=
  manage_idempotent_core S (allowedIndices viewers vd)

/-- C4 (counterexample): with two viewers at the same position and no
persisted files, a single resolution tick from the empty world spawns
two live chunks carrying the index (0,0). -/
theorem C4_counterexample :
    idxCount (((0 : Int), (0 : Int)) : IVec2)
        (resolveTick emptyW [(qOfInt 0, qOfInt 0), (qOfInt 0, qOfInt 0)] (qOfInt 20)).next.chunks
      = 2
    ∧ ¬ (idxCount (((0 : Int), (0 : Int)) : IVec2)
          (resolveTick emptyW [(qOfInt 0, qOfInt 0), (qOfInt 0, qOfInt 0)] (qOfInt 20)).next.chunks
        ≤ 1) := by
  refine ⟨by decide, by decide⟩

/-- C4 (amended): provided no index is covered by two viewers in the
same tick and every persisted file carries its own index, every state
reachable by resolution ticks and load completions from a state
satisfying the residency invariant has at most one live representation
per index. -/
theorem C4_no_duplicate_residency (S0 S : WState) (i : IVec2)
    (hinv : Inv S0) (hr : Reach S0 S) :
    idxCount i S.chunks ≤ 1 := by
  have := (inv_reach hr hinv).2 i
  omega

/-- C4 (witness): the amended theorem applies to the empty world. -/
theorem C4_no_duplicate_residency_witness :
    idxCount (((0 : Int), (0 : Int)) : IVec2) emptyW.chunks ≤ 1 :=
  C4_no_duplicate_residency emptyW emptyW ((0 : Int), (0 : Int)) inv_emptyW (Reach.refl emptyW)

/-- C5: decoding the encoding of any in-memory chunk succeeds and
yields a chunk whose (partition index, cell coordinate, GroundKind)
multiset is identical to the original. -/
theorem C5_codec_round_trip (cd : ChunkData) :
    ∃ cd', decodeChunkData (encodeChunkData cd) = some cd'
      ∧ cd'.chunk_index = cd.chunk_index
      ∧ Multiset.ofList (cd'.tiles.map (fun t => (cd'.chunk_index, t.tile_index, t.ground)))
        = Multiset.ofList (cd.tiles.map (fun t => (cd.chunk_index, t.tile_index, t.ground))) :=
  ⟨cd, decode_encode cd, rfl, rfl⟩

/-- C6 (counterexample): the index (0,0) is desired on the first tick
(a load for its persisted file goes in flight) and leaves the desired
set on the next tick, yet no save task is submitted for it, because it
was never materialized. -/
theorem C6_counterexample :
    ((((0 : Int), (0 : Int)) : IVec2) ∈ allowedIndices [(qOfInt 0, qOfInt 0)] (qOfInt 20))
    ∧ allowedIndices ([] : List (QVal × QVal)) (qOfInt 20) = []
    ∧ List.countP (fun s => s.1 = (((0 : Int), (0 : Int)) : IVec2))
        (resolveTick
          (resolveTick { chunks := [], tasks := [], store := corruptStore00 }
            [(qOfInt 0, qOfInt 0)] (qOfInt 20)).next
          [] (qOfInt 20)).saves = 0 := by
  refine ⟨by decide, by decide, by decide⟩

/-- C6 (amended): for every index that is resident (with a single live
representation) when it leaves the desired set, the resolution tick
submits exactly one save task for it, and the snapshot it carries is
the live cell state of that chunk at the moment eviction is decided,
taken before the chunk is despawned. -/
theorem C6_eviction_saves_resident (S : WState) (viewers : List (QVal × QVal)) (vd : QVal)
    (i : IVec2) (c : ChunkEnt)
    (hu : idxCount i S.chunks = 1) (hc : c ∈ S.chunks) (hci : c.index = i)
    (hnd : i ∉ allowedIndices viewers vd) :
    ((resolveTick S viewers vd).saves).filter (fun s => s.1 = i)
      = [(i, { chunk_index := i,
               tiles := c.tiles.map (fun t => { tile_index := t.pos, ground := t.ground }) })] := by
  have hcnt0 : List.count i (allowedIndices viewers vd) = 0 :=
    List.count_eq_zero_of_not_mem hnd
  have hk := kept_add_rem S.chunks (allowedIndices viewers vd) i
  have hke := kept_add_evicted S.chunks (allowedIndices viewers vd) i
  have hrle := matchRem_le S.chunks (allowedIndices viewers vd) i
  have hflag : (c, false) ∈ matchFlags S.chunks (allowedIndices viewers vd) :=
    matchFlags_flag_false hc (by rw [hci]; exact hnd)
  have hcountP := flushEvicts_countP [] (matchFlags S.chunks (allowedIndices viewers vd)) i
  have hev : idxCount i (evictedOf (matchFlags S.chunks (allowedIndices viewers vd))) = 1 := by
    omega
  have humem : idxCount i
      ([] ++ (matchFlags S.chunks (allowedIndices viewers vd)).map (·.1)) = 1 := by
    rw [List.nil_append, matchFlags_map_fst]
    exact hu
  have hmem := flushEvicts_snapshot (matchFlags S.chunks (allowedIndices viewers vd)) [] c i
    humem hflag hci
  show ((flushEvicts [] (matchFlags S.chunks (allowedIndices viewers vd))).1).filter
      (fun s => s.1 = i) = _
  refine filter_eq_singleton_of_countP ?_ hmem (by simp)
  rw [hcountP, hev]

/-- C6 (witness): the amended theorem applies to a world holding one
generated chunk at (0,0) when the viewer set becomes empty. -/
theorem C6_eviction_saves_resident_witness :
    idxCount (((0 : Int), (0 : Int)) : IVec2) oneChunkW.chunks = 1
    ∧ (((0 : Int), (0 : Int)) : IVec2) ∉ allowedIndices [] (qOfInt 20)
    ∧ ((resolveTick oneChunkW [] (qOfInt 20)).saves).filter
        (fun s => s.1 = (((0 : Int), (0 : Int)) : IVec2))
      = [(((0 : Int), (0 : Int)),
          { chunk_index := ((0 : Int), (0 : Int)),
            tiles := (spawn_chunk_gen ((0 : Int), (0 : Int))).tiles.map
              (fun t => { tile_index := t.pos, ground := t.ground }) })] := by
  refine ⟨by decide, by decide,
    C6_eviction_saves_resident oneChunkW [] (qOfInt 20) ((0 : Int), (0 : Int))
      (spawn_chunk_gen ((0 : Int), (0 : Int)))
      (by decide) (by decide) rfl (by decide)⟩

/-- C7: when polling a pending load fails, with an IoError (the file
cannot be read) or with a DecodeError (the file is corrupt), no chunk
is spawned, the pending record is discarded so the index returns to
Unloaded, and on the next tick, if the index is still desired, a fresh
load is issued when the file is present, or the chunk is generated
when it is absent; in particular with the file removed between ticks
the index is regenerated. -/
theorem C7_load_failure_recovery (S : WState) (k : Nat) (i : IVec2)
    (viewers : List (QVal × QVal)) (vd : QVal)
    (hk : S.tasks[k]? = some i)
    (herr : S.store i = none
      ∨ ∃ bytes, S.store i = some bytes ∧ decodeChunkData bytes = none)
    (hp : List.count i S.tasks = 1) (hr : idxCount i S.chunks = 0)
    (hcov : i ∈ allowedIndices viewers vd) :
    ∃ S', task_poll S k = some S'
      ∧ S'.chunks = S.chunks
      ∧ List.count i S'.tasks = 0
      ∧ ((S.store i).isSome = true → i ∈ (resolveTick S' viewers vd).loads)
      ∧ ((S.store i).isNone = true → i ∈ (resolveTick S' viewers vd).gens)
      ∧ i ∈ (resolveTick (storeErase S' i) viewers vd).gens := by
  have hcera := count_eraseIdx hk i
  rw [if_pos rfl] at hcera
  have ha : 0 < List.count i (allowedIndices viewers vd) := List.count_pos_iff.mpr hcov
  have hk1 := kept_add_rem S.chunks (allowedIndices viewers vd) i
  have hke1 := kept_add_evicted S.chunks (allowedIndices viewers vd) i
  have htasks0 : List.count i (S.tasks.eraseIdx k) = 0 := by omega
  have hq2 := filterPending_ge (S.tasks.eraseIdx k)
    (matchRem S.chunks (allowedIndices viewers vd)) i
  have hpos2 : 0 < List.count i
      (filterPending (S.tasks.eraseIdx k)
        (matchRem S.chunks (allowedIndices viewers vd))) := by omega
  refine ⟨{ chunks := S.chunks, tasks := S.tasks.eraseIdx k, store := S.store },
    ?_, rfl, htasks0, ?_, ?_, ?_⟩
  · rcases herr with hst | ⟨bytes, hst, hdec⟩
    · exact task_poll_io_err hk hst
    · exact task_poll_decode_err hk hst hdec
  · intro hsome
    obtain ⟨bytes, hst⟩ := Option.isSome_iff_exists.mp hsome
    show i ∈ (filterPending (S.tasks.eraseIdx k)
        (matchRem S.chunks (allowedIndices viewers vd))).filter
        (fun j => (S.store j).isSome)
    refine List.count_pos_iff.mp ?_
    rw [count_filter_isSome_all _ i hst]
    exact hpos2
  · intro hnone
    have hst : S.store i = none := Option.isNone_iff_eq_none.mp hnone
    show i ∈ (filterPending (S.tasks.eraseIdx k)
        (matchRem S.chunks (allowedIndices viewers vd))).filter
        (fun j => (S.store j).isNone)
    refine List.count_pos_iff.mp ?_
    rw [count_filter_isNone_all _ i hst]
    exact hpos2
  · show i ∈ (filterPending (S.tasks.eraseIdx k)
        (matchRem S.chunks (allowedIndices viewers vd))).filter
        (fun j => (if j = i then none else S.store j).isNone)
    have herase : (if i = i then none else S.store i) = (none : Option (List Tok)) := by
      rw [if_pos rfl]
    refine List.count_pos_iff.mp ?_
    rw [count_filter_isNone_all _ i herase]
    exact hpos2

/-- C7 (witness): the recovery theorem applies both to a world with
one in-flight load for (0,0) whose persisted file is undecodable (the
DecodeError branch: the next tick reissues the load, or generates once
the file is erased) and to one whose file is absent (the IoError
branch: the next tick generates). -/
theorem C7_load_failure_recovery_witness :
    (∃ S', task_poll corruptTaskW 0 = some S'
      ∧ S'.chunks = corruptTaskW.chunks
      ∧ List.count (((0 : Int), (0 : Int)) : IVec2) S'.tasks = 0
      ∧ ((corruptTaskW.store ((0 : Int), (0 : Int))).isSome = true →
          (((0 : Int), (0 : Int)) : IVec2) ∈
            (resolveTick S' [(qOfInt 0, qOfInt 0)] (qOfInt 20)).loads)
      ∧ ((corruptTaskW.store ((0 : Int), (0 : Int))).isNone = true →
          (((0 : Int), (0 : Int)) : IVec2) ∈
            (resolveTick S' [(qOfInt 0, qOfInt 0)] (qOfInt 20)).gens)
      ∧ (((0 : Int), (0 : Int)) : IVec2) ∈
          (resolveTick (storeErase S' ((0 : Int), (0 : Int)))
            [(qOfInt 0, qOfInt 0)] (qOfInt 20)).gens)
    ∧ (∃ S', task_poll missingFileTaskW 0 = some S'
      ∧ S'.chunks = missingFileTaskW.chunks
      ∧ List.count (((0 : Int), (0 : Int)) : IVec2) S'.tasks = 0
      ∧ ((missingFileTaskW.store ((0 : Int), (0 : Int))).isSome = true →
          (((0 : Int), (0 : Int)) : IVec2) ∈
            (resolveTick S' [(qOfInt 0, qOfInt 0)] (qOfInt 20)).loads)
      ∧ ((missingFileTaskW.store ((0 : Int), (0 : Int))).isNone = true →
          (((0 : Int), (0 : Int)) : IVec2) ∈
            (resolveTick S' [(qOfInt 0, qOfInt 0)] (qOfInt 20)).gens)
      ∧ (((0 : Int), (0 : Int)) : IVec2) ∈
          (resolveTick (storeErase S' ((0 : Int), (0 : Int)))
            [(qOfInt 0, qOfInt 0)] (qOfInt 20)).gens) :=
  ⟨C7_load_failure_recovery corruptTaskW 0 ((0 : Int), (0 : Int))
      [(qOfInt 0, qOfInt 0)] (qOfInt 20) (by decide)
      (Or.inr ⟨[Tok.comma], by decide, by decide⟩) (by decide) (by decide) (by decide),
    C7_load_failure_recovery missingFileTaskW 0 ((0 : Int), (0 : Int))
      [(qOfInt 0, qOfInt 0)] (qOfInt 20) (by decide)
      (Or.inl rfl) (by decide) (by decide) (by decide)⟩

/-- C8 (counterexample): not every failure degrades to a skipped
cycle: a well-formed persisted file listing a tile outside the 8 x 8
grid decodes successfully, and materializing it dereferences the
64-slot tile vector at the unchecked index y * 8 + x = 64, so polling
that load crashes the process (modelled as task_poll returning none). -/
theorem C8_counterexample :
    decodeChunkData (encodeChunkData oobChunkData) = some oobChunkData
    ∧ spawn_chunk_stub oobChunkData = none
    ∧ task_poll oobTaskW 0 = none := by
  have h1 : oobTaskW.tasks[0]? = some (((0 : Int), (0 : Int)) : IVec2) := by decide
  have h2 : oobTaskW.store ((0 : Int), (0 : Int)) = some (encodeChunkData oobChunkData) := by
    decide
  have h3 : decodeChunkData (encodeChunkData oobChunkData) = some oobChunkData :=
    decode_encode oobChunkData
  have h4 : spawn_chunk_stub oobChunkData = none := by decide
  exact ⟨h3, h4, task_poll_panic h1 h2 h3 h4⟩

/-- C8 (amended): the resolution step itself never panics (the lookup
made by the save observer for every evicted chunk always succeeds),
and polling a load that fails with an IoError or a DecodeError never
panics either; but polling a load whose file decodes is panic-free
exactly when every listed tile lies inside the 8 x 8 grid, because
TileStorage::set indexes the tile vector with y * 8 + x unchecked. -/
theorem C8_no_panic_except_oob_tiles :
    (∀ (S : WState) (viewers : List (QVal × QVal)) (vd : QVal),
      (resolveTick S viewers vd).panicked = false)
    ∧ (∀ (S : WState) (k : Nat) (i : IVec2), S.tasks[k]? = some i →
        (S.store i = none ∨ ∃ bytes, S.store i = some bytes ∧ decodeChunkData bytes = none) →
        ∃ S', task_poll S k = some S')
    ∧ (∀ (S : WState) (k : Nat) (i : IVec2) (bytes : List Tok) (cd : ChunkData),
        S.tasks[k]? = some i → S.store i = some bytes → decodeChunkData bytes = some cd →
        ((∃ S', task_poll S k = some S') ↔
          ∀ t ∈ cd.tiles, tile_to_index t.tile_index < TILES_PER_CHUNK * TILES_PER_CHUNK)) := by
  refine ⟨?_, ?_, ?_⟩
  · intro S viewers vd
    show (manage_loaded_chunks S (allowedIndices viewers vd)).panicked = false
    rw [manage_panicked]
    exact flushEvicts_panicked _ _
  · intro S k i hk herr
    rcases herr with hst | ⟨bytes, hst, hdec⟩
    · exact ⟨_, task_poll_io_err hk hst⟩
    · exact ⟨_, task_poll_decode_err hk hst hdec⟩
  · intro S k i bytes cd hk hst hdec
    constructor
    · rintro ⟨S', hS'⟩
      by_contra hoob
      push_neg at hoob
      obtain ⟨t, ht, hle⟩ := hoob
      have hsp : spawn_chunk_stub cd = none := spawn_chunk_stub_of_oob ⟨t, ht, hle⟩
      rw [task_poll_panic hk hst hdec hsp] at hS'
      exact Option.noConfusion hS'
    · intro hin
      exact ⟨_, task_poll_spawn hk hst hdec (spawn_chunk_stub_of_inbounds hin)⟩

/-- C8 (witness): the amended theorem applies with an empty world for
the tick part, with a missing file for the poll-error part, and with
the out-of-grid persisted file for the characterization part. -/
theorem C8_no_panic_except_oob_tiles_witness :
    (resolveTick emptyW [] (qOfInt 20)).panicked = false
    ∧ (∃ S', task_poll missingFileTaskW 0 = some S')
    ∧ ((∃ S', task_poll oobTaskW 0 = some S') ↔
        ∀ t ∈ oobChunkData.tiles,
          tile_to_index t.tile_index < TILES_PER_CHUNK * TILES_PER_CHUNK) :=
  ⟨C8_no_panic_except_oob_tiles.1 emptyW [] (qOfInt 20),
    C8_no_panic_except_oob_tiles.2.1 missingFileTaskW 0 ((0 : Int), (0 : Int))
      (by decide) (Or.inl rfl),
    C8_no_panic_except_oob_tiles.2.2 oobTaskW 0 ((0 : Int), (0 : Int))
      (encodeChunkData oobChunkData) oobChunkData
      (by decide) (by decide) (decode_encode oobChunkData)⟩

/-- C9: the backing-store key is injective: distinct partition indices
always map to distinct file paths "world/x_y.ron", because decimal
integer renderings never contain the separator character. -/
theorem C9_file_key_injective (a b : IVec2) (hne : a ≠ b) :
    chunk_file_path a ≠ chunk_file_path b :=
  fun h => hne (chunk_file_path_inj h)

/-- C9 (witness): the injectivity theorem applies to (0,0) and (0,1). -/
theorem C9_file_key_injective_witness :
    ((((0 : Int), (0 : Int)) : IVec2) ≠ (((0 : Int), (1 : Int)) : IVec2))
    ∧ chunk_file_path ((0 : Int), (0 : Int)) ≠ chunk_file_path ((0 : Int), (1 : Int)) :=
  ⟨by decide, C9_file_key_injective _ _ (by decide)⟩

/-- C10 (counterexample): the first half of the claim holds (decode
validates nothing), but materialization does not spawn the listed
tiles without error regardless of coordinates: a decoded tile at cell
(7, 9) has unchecked index 9 * 8 + 7 = 79 in the 64-slot tile vector,
and TileStorage::set panics on it. -/
theorem C10_counterexample :
    decodeChunkData (encodeChunkData oobChunkData2) = some oobChunkData2
    ∧ spawn_chunk_stub oobChunkData2 = none :=
  ⟨decode_encode oobChunkData2, by decide⟩

/-- C10 (amended): decode does not validate grid completeness: the
encoding of any ChunkData, whatever the number of tiles, decodes
successfully to the same data; materialization spawns exactly the
listed tiles when every tile carries an in-grid coordinate (so a
resident partition may hold fewer than the 64 cells with no error
reported), but panics as soon as one tile falls outside the 8 x 8
grid. -/
theorem C10_decode_unvalidated (cd : ChunkData) :
    decodeChunkData (encodeChunkData cd) = some cd
    ∧ ((∀ t ∈ cd.tiles, tile_to_index t.tile_index < TILES_PER_CHUNK * TILES_PER_CHUNK) →
        spawn_chunk_stub cd
          = some { index := cd.chunk_index,
                   tiles := cd.tiles.map (fun t => { pos := t.tile_index, ground := t.ground }) })
    ∧ ((∃ t ∈ cd.tiles, TILES_PER_CHUNK * TILES_PER_CHUNK ≤ tile_to_index t.tile_index) →
        spawn_chunk_stub cd = none) :=
  ⟨decode_encode cd, fun h => spawn_chunk_stub_of_inbounds h,
    fun h => spawn_chunk_stub_of_oob h⟩

/-- C10 (witness): the amended theorem applies to a one-tile chunk
whose single tile sits in the grid: it round-trips and spawns exactly
that tile. -/
theorem C10_decode_unvalidated_witness :
    decodeChunkData (encodeChunkData sparseChunkData) = some sparseChunkData
    ∧ spawn_chunk_stub sparseChunkData
        = some { index := sparseChunkData.chunk_index,
                 tiles := sparseChunkData.tiles.map
                   (fun t => { pos := t.tile_index, ground := t.ground }) } :=
  ⟨(C10_decode_unvalidated sparseChunkData).1,
    (C10_decode_unvalidated sparseChunkData).2.1 (by decide)⟩

end Crafting
